import Mathlib

/-!
Verification development for the onnx-extractor crate.

This file gives a shallow embedding, in Lean 4, of the parts of the crate
that the checked properties talk about:

* TensorData and its length / emptiness queries (src/tensor.rs),
* the zero-copy byte view and typed reinterpretation copy_data_as
  (src/tensor.rs),
* the external data loader slice_data and load_data (src/external_data.rs),
* the attribute adapter parse_attribute_proto and the tensor adapter
  tensor_from_proto / extract_typed_data (src/proto_adapter.rs),
* model ingestion load_from_bytes (src/model.rs), and
* both scheduling routines topological_order and execution_order
  (src/model.rs).

Machine integers are modelled as Nat or Int; raw bytes as List UInt8;
32 and 64 bit floating point payloads are carried as their bit patterns
(Nat), since the crate never computes with them, it only moves their bytes.
Fallible Rust functions returning Result are embedded as Except Error.
Rust HashMap insertion is embedded as prepend onto an association list,
looked up by first match, which realises the same last-write-wins lookup
semantics.  The protobuf wire decoding itself (prost) is an external
collaborator of the crate and is not modelled: functions take the decoded
message tree as input.
-/

namespace Onnx

deriving instance DecidableEq for Except

/-- Error type of the crate (src/error.rs, plus the DataConversion variant
used by src/tensor.rs).  Payloads of wrapped foreign errors are reduced to
message strings. -/
inductive Error where
  | io : String → Error
  | decode : String → Error
  | utf8 : Error
  | invalidModel : String → Error
  | missingField : String → Error
  | unsupported : String → Error
  | dataConversion : String → Error
deriving DecidableEq, Repr

/-- Zero-copy tensor data view (src/tensor.rs, enum TensorData).  Raw is the
contiguous raw_data buffer, Numeric a reinterpreted typed array, Strings a
sequence of independently owned string elements. -/
inductive TensorData where
  | raw : List UInt8 → TensorData
  | numeric : List UInt8 → TensorData
  | strings : List (List UInt8) → TensorData
deriving DecidableEq, Repr

/-- Total byte length across all variants (src/tensor.rs, TensorData::len).
For Strings, the sum of all string element byte lengths. -/
def TensorData.len : TensorData → Nat
  | .raw b => b.length
  | .numeric b => b.length
  | .strings parts => (parts.map List.length).sum

/-- Emptiness test (src/tensor.rs, TensorData::is_empty).  For Raw and
Numeric this is emptiness of the byte buffer; for Strings it is emptiness
of the element vector, so empty string elements still count as elements. -/
def TensorData.is_empty : TensorData → Bool
  | .raw b => b.isEmpty
  | .numeric b => b.isEmpty
  | .strings parts => parts.isEmpty

/-- Contiguous byte view (src/tensor.rs, TensorData::as_slice).  Raw and
Numeric give their buffer; Strings concatenates the elements (the source
borrows a single element directly and returns the empty slice for no
elements, which both coincide with concatenation as a value). -/
def TensorData.as_slice : TensorData → List UInt8
  | .raw b => b
  | .numeric b => b
  | .strings parts =>
      if parts.length = 1 then parts.headI
      else if parts.isEmpty then []
      else parts.flatten

/-- Little-endian byte encoding of a w byte machine scalar given as its bit
pattern.  This models the to_le_bytes calls of the source on a little-endian
platform, which the crate documents as an assumption. -/
def leBytes (w : Nat) (x : Nat) : List UInt8 :=
  (List.range w).map (fun i => UInt8.ofNat (x / 256 ^ i % 256))

/-- Generated protobuf tensor message (onnx.proto TensorProto), restricted to
the fields the crate reads.  Numeric repeated fields carry element bit
patterns as Nat. -/
structure TensorProto where
  name : Option String
  dims : List Int
  data_type : Option Int
  raw_data : Option (List UInt8)
  float_data : List Nat
  double_data : List Nat
  int32_data : List Nat
  int64_data : List Nat
  uint64_data : List Nat
  string_data : List (List UInt8)
deriving DecidableEq, Repr

/-- Generated protobuf scalar type enumeration (onnx.proto
TensorProto.DataType), as produced by prost; src/tensor.rs matches on it. -/
inductive PDataType where
  | undefined | float | uint8 | int8 | uint16 | int16 | int32 | int64
  | string | bool | float16 | double | uint32 | uint64 | complex64
  | complex128 | bfloat16 | float8e4m3fn | float8e4m3fnuz | float8e5m2
  | float8e5m2fnuz | uint4 | int4 | float4e2m1 | float8e8m0
deriving DecidableEq, Repr

/-- Conversion from the wire tag to the generated enum
(prost TryFrom for DataType); unknown tags give none. -/
def PDataType.tryFrom (n : Int) : Option PDataType :=
  if n = 0 then some .undefined
  else if n = 1 then some .float
  else if n = 2 then some .uint8
  else if n = 3 then some .int8
  else if n = 4 then some .uint16
  else if n = 5 then some .int16
  else if n = 6 then some .int32
  else if n = 7 then some .int64
  else if n = 8 then some .string
  else if n = 9 then some .bool
  else if n = 10 then some .float16
  else if n = 11 then some .double
  else if n = 12 then some .uint32
  else if n = 13 then some .uint64
  else if n = 14 then some .complex64
  else if n = 15 then some .complex128
  else if n = 16 then some .bfloat16
  else if n = 17 then some .float8e4m3fn
  else if n = 18 then some .float8e4m3fnuz
  else if n = 19 then some .float8e5m2
  else if n = 20 then some .float8e5m2fnuz
  else if n = 21 then some .uint4
  else if n = 22 then some .int4
  else if n = 23 then some .float4e2m1
  else if n = 24 then some .float8e8m0
  else none

/-- Modelled from the spec: the data type constructor used by the tensor
record of src/tensor.rs.  Its body is not under src (only the dispatch table
of section 4.2 of the spec and the tryFrom conversion are); per the spec it
maps a wire tag to the enumeration tag, defaulting to Undefined. -/
def PDataType.from_onnx_type (n : Int) : PDataType :=
  (PDataType.tryFrom n).getD .undefined

/-- Storage buckets for the typed repeated fields
(src/tensor.rs, enum StorageBacking). -/
inductive StorageBacking where
  | f32 | f64 | i64 | u64 | i32 | strings
deriving DecidableEq, Repr

/-- Mapping from declared data type to the typed repeated field that backs
it (src/tensor.rs, fn storage_backing). -/
def storage_backing (dt : PDataType) : Option StorageBacking :=
  match dt with
  | .float | .complex64 => some .f32
  | .double | .complex128 => some .f64
  | .int64 => some .i64
  | .uint32 | .uint64 => some .u64
  | .int32 | .int16 | .int8 | .int4 | .uint16 | .uint8 | .uint4 | .bool
  | .float16 | .bfloat16 | .float8e4m3fn | .float8e4m3fnuz | .float8e5m2
  | .float8e5m2fnuz | .float8e8m0 | .float4e2m1 => some .i32
  | .string => some .strings
  | .undefined => none

/-- Byte view of a typed numeric array (src/tensor.rs, fn slice_bytes_as):
each element contributes its little-endian bytes, contiguously. -/
def sliceBytesAs (w : Nat) (xs : List Nat) : List UInt8 :=
  (xs.map (leBytes w)).flatten

/-- Tensor record of src/tensor.rs (struct OnnxTensor): name, shape, data
type and the optionally retained decoded message carrying the payload. -/
structure OnnxTensor where
  name : String
  shape : List Int
  data_type : PDataType
  proto : Option TensorProto
deriving DecidableEq, Repr

/-- Payload access (src/tensor.rs, OnnxTensor::data).  Non-empty raw_data
wins; otherwise the typed field selected by the storage bucket of the
declared type is reinterpreted as bytes; string tensors with declared
non-trivial shape but no elements are an error, as is an Undefined type or
a missing message. -/
def OnnxTensor.data (t : OnnxTensor) : Except Error TensorData :=
  match t.proto with
  | none => .error (.missingField "tensor data")
  | some p =>
    if (p.raw_data.getD []) ≠ [] then .ok (.raw (p.raw_data.getD []))
    else
      match storage_backing t.data_type with
      | some .f32 => .ok (.numeric (sliceBytesAs 4 p.float_data))
      | some .f64 => .ok (.numeric (sliceBytesAs 8 p.double_data))
      | some .i64 => .ok (.numeric (sliceBytesAs 8 p.int64_data))
      | some .u64 => .ok (.numeric (sliceBytesAs 8 p.uint64_data))
      | some .i32 => .ok (.numeric (sliceBytesAs 4 p.int32_data))
      | some .strings =>
          if p.string_data.isEmpty && t.shape.any (fun d => d ≠ 0) then
            .error (.missingField "tensor data")
          else .ok (.strings p.string_data)
      | none => .error (.missingField "tensor data")

/-- Chunking helper with explicit fuel; splits a byte list into consecutive
groups of w bytes.  Models the element-wise unaligned reads of
copy_data_as, each produced element being its w source bytes. -/
def chunksAux (w : Nat) : List UInt8 → Nat → List (List UInt8)
  | _, 0 => []
  | l, fuel + 1 => if l.isEmpty then [] else l.take w :: chunksAux w (l.drop w) fuel

/-- Splits a byte list into consecutive groups of w bytes. -/
def chunks (w : Nat) (l : List UInt8) : List (List UInt8) :=
  chunksAux w l l.length

/-- Typed reinterpretation (src/tensor.rs, OnnxTensor::copy_data_as).  The
generic parameter T of the source is represented by the byte width
typeSize (size_of of T) and the display name typeName (type_name of T);
each produced element is represented by its typeSize source bytes. -/
def OnnxTensor.copy_data_as (t : OnnxTensor) (typeSize : Nat)
    (typeName : String) : Except Error (List (List UInt8)) :=
  match t.data with
  | .error e => .error e
  | .ok d =>
    if typeSize = 0 then .error (.dataConversion "Zero-sized types not supported")
    else
      let bytes : List UInt8 :=
        match d with
        | .raw b => b
        | .numeric b => b
        | .strings parts => parts.flatten
      if bytes.isEmpty then .ok []
      else if ¬ (bytes.length % typeSize = 0) then
        .error (.dataConversion ("Data size " ++ toString bytes.length ++
          " not aligned to type size " ++ toString typeSize ++ " for " ++ typeName))
      else .ok (chunks typeSize bytes)

/-- Maximum value of usize on the 64 bit platforms the crate targets. -/
def USIZE_MAX : Nat := 2 ^ 64 - 1

/-- Saturating usize addition (u64 saturating_add as used by slice_data). -/
def satAdd (a b : Nat) : Nat := min (a + b) USIZE_MAX

/-- External data range metadata (src/external_data.rs, struct
ExternalDataInfo).  The shared loader handle of the source is passed
explicitly to the functions that use it and is not a field here. -/
structure ExternalDataInfo where
  location : String
  offset : Option Nat
  length : Option Nat
deriving DecidableEq, Repr

/-- Bounds-checked slice extraction (src/external_data.rs,
ExternalDataLoader::slice_data). -/
def slice_data (data : List UInt8) (info : ExternalDataInfo) :
    Except Error (List UInt8) :=
  let start := info.offset.getD 0
  let stop :=
    match info.length with
    | some len => satAdd start len
    | none => data.length
  if start > data.length then
    .error (.invalidModel ("External data offset " ++ toString start ++
      " exceeds file size " ++ toString data.length))
  else if stop > data.length then
    .error (.invalidModel ("External data range " ++ toString start ++ ".." ++
      toString stop ++ " exceeds file size " ++ toString data.length))
  else .ok ((data.drop start).take (stop - start))

/-- External data loader state (src/external_data.rs, struct
ExternalDataLoader): the model directory and the location-keyed cache of
fully read files.  The RefCell interior mutability of the source is
embedded as explicit state passing. -/
structure ExternalDataLoader where
  model_dir : String
  cache : List (String × List UInt8)
deriving DecidableEq, Repr

/-- Path join of the fixed base directory with a relative location
(model_dir.join(location) for relative locations). -/
def joinPath (dir loc : String) : String := dir ++ "/" ++ loc

/-- Result of one load_data call: the returned slice or error, the loader
state afterwards, and whether the call performed a file read (the
instrumentation used to state the caching properties). -/
structure LoadDataResult where
  result : Except Error (List UInt8)
  loader : ExternalDataLoader
  didRead : Bool
deriving DecidableEq, Repr

/-- Cached external data load (src/external_data.rs,
ExternalDataLoader::load_data).  The file system is passed as a map from
path to contents; an absent path models an open failure.  On a cache hit
the cached bytes are sliced; on a miss the file is read in full, the slice
is computed, and only if slicing succeeded are the file bytes inserted into
the cache (the source returns the slicing error with the question mark
operator before the cache insertion). -/
def load_data (fs : String → Option (List UInt8)) (ld : ExternalDataLoader)
    (info : ExternalDataInfo) : LoadDataResult :=
  match (ld.cache.lookup info.location : Option (List UInt8)) with
  | some cached => ⟨slice_data cached info, ld, false⟩
  | none =>
    match fs (joinPath ld.model_dir info.location) with
    | none =>
        ⟨.error (.io ("Failed to open external data file " ++
          joinPath ld.model_dir info.location)), ld, true⟩
    | some file_data =>
      match slice_data file_data info with
      | .error e => ⟨.error e, ld, true⟩
      | .ok slice =>
          ⟨.ok slice, { ld with cache := (info.location, file_data) :: ld.cache },
            true⟩

/-- UTF-8 decoding with fuel, modelling the validation performed by the Rust
standard library String::from_utf8: ASCII, two, three and four byte
sequences, rejecting stray continuation bytes, overlong encodings,
surrogate code points and values above 0x10FFFF. -/
def utf8DecodeAux : Nat → List UInt8 → Option (List Char)
  | _, [] => some []
  | 0, _ :: _ => none
  | fuel + 1, b :: rest =>
    if b.toNat < 0x80 then
      (utf8DecodeAux fuel rest).map (fun cs => Char.ofNat b.toNat :: cs)
    else if b.toNat < 0xC2 then none
    else if b.toNat < 0xE0 then
      match rest with
      | c1 :: rest1 =>
        if 0x80 ≤ c1.toNat ∧ c1.toNat < 0xC0 then
          (utf8DecodeAux fuel rest1).map
            (fun cs => Char.ofNat ((b.toNat - 0xC0) * 64 + (c1.toNat - 0x80)) :: cs)
        else none
      | _ => none
    else if b.toNat < 0xF0 then
      match rest with
      | c1 :: c2 :: rest2 =>
        if 0x80 ≤ c1.toNat ∧ c1.toNat < 0xC0 ∧ 0x80 ≤ c2.toNat ∧ c2.toNat < 0xC0 then
          let v := (b.toNat - 0xE0) * 4096 + (c1.toNat - 0x80) * 64 + (c2.toNat - 0x80)
          if 0x800 ≤ v ∧ ¬ (0xD800 ≤ v ∧ v ≤ 0xDFFF) then
            (utf8DecodeAux fuel rest2).map (fun cs => Char.ofNat v :: cs)
          else none
        else none
      | _ => none
    else if b.toNat < 0xF5 then
      match rest with
      | c1 :: c2 :: c3 :: rest3 =>
        if 0x80 ≤ c1.toNat ∧ c1.toNat < 0xC0 ∧ 0x80 ≤ c2.toNat ∧ c2.toNat < 0xC0 ∧
            0x80 ≤ c3.toNat ∧ c3.toNat < 0xC0 then
          let v := (b.toNat - 0xF0) * 262144 + (c1.toNat - 0x80) * 4096 +
            (c2.toNat - 0x80) * 64 + (c3.toNat - 0x80)
          if 0x10000 ≤ v ∧ v ≤ 0x10FFFF then
            (utf8DecodeAux fuel rest3).map (fun cs => Char.ofNat v :: cs)
          else none
        else none
      | _ => none
    else none

/-- Validating UTF-8 conversion from bytes to a string, modelling Rust
String::from_utf8 as used by the attribute adapter. -/
def from_utf8 (l : List UInt8) : Option String :=
  (utf8DecodeAux l.length l).map String.mk

/-- Crate-native data type tags (src/types.rs, enum DataType). -/
inductive DataType where
  | float32 | uint8 | int8 | uint16 | int16 | int32 | int64 | string | bool
  | float16 | float64 | uint32 | uint64 | complex64 | complex128 | bfloat16
  | unknown : Int → DataType
deriving DecidableEq, Repr

/-- Conversion from the wire tag (src/types.rs, DataType::from_onnx_type). -/
def DataType.from_onnx_type (n : Int) : DataType :=
  if n = 1 then .float32
  else if n = 2 then .uint8
  else if n = 3 then .int8
  else if n = 4 then .uint16
  else if n = 5 then .int16
  else if n = 6 then .int32
  else if n = 7 then .int64
  else if n = 8 then .string
  else if n = 9 then .bool
  else if n = 10 then .float16
  else if n = 11 then .float64
  else if n = 12 then .uint32
  else if n = 13 then .uint64
  else if n = 14 then .complex64
  else if n = 15 then .complex128
  else if n = 16 then .bfloat16
  else .unknown n

/-- Tensor registry record built by ingestion (the TensorInfo record used by
src/model.rs; its construction from a decoded tensor message is the
tensor_from_proto adapter of src/proto_adapter.rs, which stores the
extracted bytes in raw_bytes). -/
structure TensorInfo where
  name : String
  shape : List Int
  data_type : DataType
  raw_bytes : Option (List UInt8)
deriving DecidableEq, Repr

/-- Whether a tensor record carries data.  Modelled from the spec: has_data
is called by src/model.rs but its body is not under src; per the spec a
weight tensor is one whose record holds a payload, which for this record is
the presence of extracted bytes. -/
def TensorInfo.has_data (t : TensorInfo) : Bool := t.raw_bytes.isSome

/-- Fallback extraction of typed repeated fields as bytes
(src/proto_adapter.rs, fn extract_typed_data).  Each non-empty typed field
is flattened to little-endian bytes; an Undefined or unknown declared type
tries every field in the fixed order of the source. -/
def extract_typed_data (t : TensorProto) : Option (List UInt8) :=
  let dt := (PDataType.tryFrom (t.data_type.getD 0)).getD .undefined
  let numeric : Nat → List Nat → Option (List UInt8) := fun w field =>
    if field.isEmpty then none else some (sliceBytesAs w field)
  let strs : Option (List UInt8) :=
    if t.string_data.isEmpty then none else some t.string_data.flatten
  match dt with
  | .float | .complex64 => numeric 4 t.float_data
  | .double | .complex128 => numeric 8 t.double_data
  | .int32 | .int16 | .int8 | .int4 | .uint16 | .uint8 | .uint4 | .bool
  | .float16 | .bfloat16 | .float8e4m3fn | .float8e4m3fnuz | .float8e5m2
  | .float8e5m2fnuz | .float8e8m0 | .float4e2m1 => numeric 4 t.int32_data
  | .int64 => numeric 8 t.int64_data
  | .uint32 | .uint64 => numeric 8 t.uint64_data
  | .string => strs
  | .undefined =>
      (((((numeric 4 t.float_data).orElse (fun _ => numeric 8 t.double_data)).orElse
        (fun _ => numeric 4 t.int32_data)).orElse
        (fun _ => numeric 8 t.int64_data)).orElse
        (fun _ => numeric 8 t.uint64_data)).orElse (fun _ => strs)

/-- Tensor adapter (src/proto_adapter.rs, fn tensor_from_proto): non-empty
raw_data wins, otherwise the typed fields are extracted; absence of both
leaves a record without data. -/
def tensor_from_proto (t : TensorProto) : Except Error TensorInfo :=
  .ok
    { name := t.name.getD ""
      shape := t.dims
      data_type := DataType.from_onnx_type (t.data_type.getD 0)
      raw_bytes :=
        if (t.raw_data.getD []).isEmpty then extract_typed_data t
        else some (t.raw_data.getD []) }

/-- Decoded attribute message (onnx.proto AttributeProto), restricted to the
fields the adapter reads; the type field carries the numeric tag. -/
structure AttributeProto where
  name : Option String
  type : Option Int
  f : Option Nat
  i : Option Int
  s : Option (List UInt8)
  t : Option TensorProto
  floats : List Nat
  ints : List Int
  strings : List (List UInt8)
deriving DecidableEq, Repr

/-- Crate-native attribute values (src/types.rs, enum AttributeValue); float
payloads are carried as 32 bit patterns. -/
inductive AttributeValue where
  | int : Int → AttributeValue
  | float : Nat → AttributeValue
  | string : String → AttributeValue
  | tensor : TensorInfo → AttributeValue
  | ints : List Int → AttributeValue
  | floats : List Nat → AttributeValue
  | strings : List String → AttributeValue
deriving DecidableEq, Repr

/-- Collects validated UTF-8 strings, failing on the first invalid element
(the collect over Result of the source). -/
def collectStrings : List (List UInt8) → Except Error (List String)
  | [] => .ok []
  | b :: rest =>
    match from_utf8 b with
    | none => .error .utf8
    | some s =>
      match collectStrings rest with
      | .error e => .error e
      | .ok ss => .ok (s :: ss)

/-- Attribute adapter (src/proto_adapter.rs, fn parse_attribute_proto):
dispatch on the numeric type tag, with an absent tag read as 0; tags
outside the supported set are an Unsupported error naming the tag. -/
def parse_attribute_proto (attr : AttributeProto) : Except Error AttributeValue :=
  let attr_type := attr.type.getD 0
  if attr_type = 1 then .ok (.float (attr.f.getD 0))
  else if attr_type = 2 then .ok (.int (attr.i.getD 0))
  else if attr_type = 3 then
    match from_utf8 (attr.s.getD []) with
    | none => .error .utf8
    | some s => .ok (.string s)
  else if attr_type = 4 then
    match attr.t with
    | some tensor =>
      match tensor_from_proto tensor with
      | .error e => .error e
      | .ok ti => .ok (.tensor ti)
    | none => .error (.missingField "tensor attribute data")
  else if attr_type = 6 then .ok (.floats attr.floats)
  else if attr_type = 7 then .ok (.ints attr.ints)
  else if attr_type = 8 then
    match collectStrings attr.strings with
    | .error e => .error e
    | .ok ss => .ok (.strings ss)
  else .error (.unsupported ("attribute type: " ++ toString attr_type))

/-- Decoded node message (onnx.proto NodeProto), restricted to the fields
the adapter reads. -/
structure NodeProto where
  name : Option String
  op_type : Option String
  input : List String
  output : List String
  «attribute» : List AttributeProto
deriving DecidableEq, Repr

/-- Operation record (the OperationInfo record used by src/model.rs, the
OnnxOperation struct of src/operation.rs).  Attributes are a name-keyed
map, embedded as a prepend association list. -/
structure OperationInfo where
  name : String
  op_type : String
  inputs : List String
  outputs : List String
  attributes : List (String × AttributeValue)
deriving DecidableEq, Repr

instance : Inhabited OperationInfo := ⟨⟨"", "", [], [], []⟩⟩

/-- Attribute ingestion loop of the operation adapter: parse each attribute,
failing fast, and insert under its non-empty name. -/
def parseAttributes : List AttributeProto → List (String × AttributeValue) →
    Except Error (List (String × AttributeValue))
  | [], acc => .ok acc
  | attr :: rest, acc =>
    match parse_attribute_proto attr with
    | .error e => .error e
    | .ok value =>
      let attr_name := attr.name.getD ""
      parseAttributes rest
        (if attr_name ≠ "" then (attr_name, value) :: acc else acc)

/-- Operation adapter (src/proto_adapter.rs, fn operation_from_node_proto). -/
def operation_from_node_proto (node : NodeProto) : Except Error OperationInfo :=
  match parseAttributes node.«attribute» [] with
  | .error e => .error e
  | .ok attributes =>
    .ok
      { name := node.name.getD ""
        op_type := node.op_type.getD ""
        inputs := node.input
        outputs := node.output
        attributes := attributes }

/-- Dimension of a decoded shape message (onnx.proto
TensorShapeProto.Dimension): its oneof value is a literal size or a
symbolic parameter, or absent. -/
inductive DimensionValue where
  | dimValue : Int → DimensionValue
  | dimParam : String → DimensionValue
deriving DecidableEq, Repr

/-- Dimension entry with optional oneof payload. -/
structure Dimension where
  value : Option DimensionValue
deriving DecidableEq, Repr

/-- Decoded tensor shape message (onnx.proto TensorShapeProto). -/
structure TensorShapeProto where
  dim : List Dimension
deriving DecidableEq, Repr

/-- Decoded tensor type declaration (onnx.proto TypeProto.Tensor). -/
structure TensorTypeProto where
  elem_type : Option Int
  shape : Option TensorShapeProto
deriving DecidableEq, Repr

/-- The oneof value of a type declaration; the crate only uses the tensor
variant, every other variant is collapsed into otherValue. -/
inductive TypeProtoValue where
  | tensorType : TensorTypeProto → TypeProtoValue
  | otherValue : TypeProtoValue
deriving DecidableEq, Repr

/-- Decoded type message (onnx.proto TypeProto). -/
structure TypeProto where
  value : Option TypeProtoValue
deriving DecidableEq, Repr

/-- Decoded value info message (onnx.proto ValueInfoProto); also the element
type of the graph input and output lists. -/
structure ValueInfoProto where
  name : Option String
  type : Option TypeProto
deriving DecidableEq, Repr

/-- Decoded graph message (onnx.proto GraphProto), restricted to the fields
the crate reads. -/
structure GraphProto where
  node : List NodeProto
  initializer : List TensorProto
  input : List ValueInfoProto
  output : List ValueInfoProto
  value_info : List ValueInfoProto
deriving DecidableEq, Repr

/-- Decoded model message (onnx.proto ModelProto), restricted to the fields
the crate reads. -/
structure ModelProto where
  graph : Option GraphProto
  model_version : Option Int
  producer_name : Option String
  producer_version : Option String
deriving DecidableEq, Repr

/-- Shape extraction from a type declaration (src/tensor.rs,
OnnxTensor::from_tensor_type body): a missing shape gives the empty
sequence, a dimension without a literal value gives -1. -/
def shapeOfTensorType (tt : TensorTypeProto) : List Int :=
  match tt.shape with
  | some shape_proto =>
      shape_proto.dim.map (fun d =>
        match d.value with
        | some (.dimValue v) => v
        | _ => -1)
  | none => []

/-- Construction of a tensor record from a type declaration (src/tensor.rs,
OnnxTensor::from_tensor_type): the shape as above, a required non-zero
element type, and no payload. -/
def OnnxTensor.from_tensor_type (name : String) (tensor_type : TensorTypeProto) :
    Except Error OnnxTensor :=
  let shape := shapeOfTensorType tensor_type
  match tensor_type.elem_type with
  | none => .error (.missingField "tensor elem_type")
  | some elem_type =>
    if elem_type = 0 then
      .error (.invalidModel "tensor elem_type must not be UNDEFINED (0)")
    else
      .ok ⟨name, shape, PDataType.from_onnx_type elem_type, none⟩

/-- Modelled from the spec: the infallible TensorInfo::from_tensor_type
called by the shape-only ingestion passes of src/model.rs; its body is not
under src.  Per section 4.1 of the spec a type-declaration record carries
the extracted shape and type and never carries data. -/
def tensorInfoFromTensorType (name : String) (tensor_type : TensorTypeProto) :
    TensorInfo :=
  { name := name
    shape := shapeOfTensorType tensor_type
    data_type := DataType.from_onnx_type (tensor_type.elem_type.getD 0)
    raw_bytes := none }

/-- Parsed model (src/model.rs, struct OnnxModel).  The tensor registry
HashMap is embedded as a prepend association list with first-match lookup,
which gives the same lookup semantics as HashMap insert. -/
structure OnnxModel where
  tensors : List (String × TensorInfo)
  operations : List OperationInfo
  inputs : List String
  outputs : List String
  model_version : Int
  producer_name : String
  producer_version : String
deriving DecidableEq, Repr

/-- Initializer ingestion pass of load_from_bytes: adapt every initializer
tensor, failing fast, and insert it under its non-empty name. -/
def ingestInitializers : List TensorProto → List (String × TensorInfo) →
    Except Error (List (String × TensorInfo))
  | [], tensors => .ok tensors
  | t :: rest, tensors =>
    match tensor_from_proto t with
    | .error e => .error e
    | .ok tensor_info =>
      let tensor_name := t.name.getD ""
      ingestInitializers rest
        (if tensor_name ≠ "" then (tensor_name, tensor_info) :: tensors else tensors)

/-- Shape-only ingestion pass of load_from_bytes, shared by the value_info,
graph input and graph output passes: for every entry whose type declaration
is a tensor type and whose name is non-empty, insert a shape-only record. -/
def ingestValueInfos (vis : List ValueInfoProto)
    (tensors : List (String × TensorInfo)) : List (String × TensorInfo) :=
  vis.foldl
    (fun tensors vi =>
      match vi.type with
      | some { value := some (.tensorType tensor_type) } =>
        let name := vi.name.getD ""
        if name ≠ "" then (name, tensorInfoFromTensorType name tensor_type) :: tensors
        else tensors
      | _ => tensors)
    tensors

/-- Operation ingestion pass of load_from_bytes: adapt every node in
declaration order, failing fast. -/
def ingestNodes : List NodeProto → Except Error (List OperationInfo)
  | [] => .ok []
  | node :: rest =>
    match operation_from_node_proto node with
    | .error e => .error e
    | .ok operation =>
      match ingestNodes rest with
      | .error e => .error e
      | .ok ops => .ok (operation :: ops)

/-- Model ingestion (src/model.rs, OnnxModel::load_from_bytes), starting
from the decoded model message (the prost wire decoding is the external
collaborator).  Builds the initializer name set, the input and output name
lists, then populates the tensor registry in the fixed pass order
initializers, value_info, graph inputs, graph outputs, with later inserts
shadowing earlier ones on lookup, and finally adapts the nodes. -/
def load_from_bytes (model : ModelProto) : Except Error OnnxModel :=
  match model.graph with
  | none => .error (.invalidModel "No graph found in model")
  | some graph =>
    let initializer_names : List String :=
      graph.initializer.foldl
        (fun names t =>
          match t.name with
          | some name => if ¬ name.isEmpty then name :: names else names
          | none => names)
        []
    let inputs : List String :=
      (graph.input.map (fun input => input.name.getD "")).filter
        (fun name => ¬ name.isEmpty && ¬ initializer_names.contains name)
    let outputs : List String := graph.output.map (fun output => output.name.getD "")
    match ingestInitializers graph.initializer [] with
    | .error e => .error e
    | .ok tensors0 =>
      let tensors1 := ingestValueInfos graph.value_info tensors0
      let tensors2 := ingestValueInfos graph.input tensors1
      let tensors3 := ingestValueInfos graph.output tensors2
      match ingestNodes graph.node with
      | .error e => .error e
      | .ok operations =>
        .ok
          { tensors := tensors3
            operations := operations
            inputs := inputs
            outputs := outputs
            model_version := model.model_version.getD 0
            producer_name := model.producer_name.getD ""
            producer_version := model.producer_version.getD "" }

/-!
Scheduling (src/model.rs, topological_order and execution_order).  Both
routines build the same producer index, consumer index and indegree vector
and run a Kahn frontier loop; they differ only in how the frontier is
seeded and how newly ready operations are inserted.  The orderings are
embedded as lists of operation indices; the source returns the operations
at those indices in that order.
-/

/-- Producer index (tensor name to index of the first operation listing it
as a non-empty output).  The source builds a HashMap with entry or_insert,
which keeps the first write; an association list of every producing
occurrence in declaration order, looked up by first match, has exactly that
lookup semantics. -/
def producerPairs (ops : List OperationInfo) : List (String × Nat) :=
  ops.enum.flatMap
    (fun p => (p.2.outputs.filter (fun out => ¬ out.isEmpty)).map (fun out => (out, p.1)))

/-- First-write-wins producer lookup. -/
def prodIdx (ops : List OperationInfo) (name : String) : Option Nat :=
  List.lookup name (producerPairs ops)

/-- Consumer index: for a non-empty tensor name, the operation indices that
list it as an input, in declaration order, once per occurrence (the source
pushes the index once per matching input occurrence). -/
def consumersOf (ops : List OperationInfo) (name : String) : List Nat :=
  ops.enum.flatMap
    (fun p =>
      (p.2.inputs.filter (fun inp => ¬ inp.isEmpty && inp == name)).map (fun _ => p.1))

/-- Indegree vector: for each operation, the number of its non-empty input
occurrences whose name has a registered producer. -/
def indegreeOf (ops : List OperationInfo) : List Nat :=
  ops.map
    (fun op => op.inputs.countP (fun inp => ¬ inp.isEmpty && (prodIdx ops inp).isSome))

/-- One conditional indegree decrement of the frontier loop: if the consumer
still has positive indegree it is decremented, and on reaching zero the
consumer is recorded as newly ready. -/
def decStep : List Nat × List Nat → Nat → List Nat × List Nat
  | (d, nr), cidx =>
    if 0 < d.getD cidx 0 then
      if d.getD cidx 0 - 1 = 0 then (d.set cidx (d.getD cidx 0 - 1), nr ++ [cidx])
      else (d.set cidx (d.getD cidx 0 - 1), nr)
    else (d, nr)

/-- Processing of one dequeued operation: walk its non-empty outputs and
decrement every consumer of each, collecting the newly ready indices in
encounter order. -/
def relax (ops : List OperationInfo) (idx : Nat) (indeg : List Nat) :
    List Nat × List Nat :=
  (ops.getD idx default).outputs.foldl
    (fun st out => if out.isEmpty then st else (consumersOf ops out).foldl decStep st)
    (indeg, [])

/-- Kahn frontier loop, parameterised by the queue insertion policy for
newly ready operations.  Pops the queue head, records it, relaxes its
consumers, inserts the newly ready indices by the policy and repeats; the
fuel argument makes the recursion structural and is always supplied large
enough to outlast the loop (each index is dequeued at most once).  Besides
the emitted order the loop records the successive newly ready rounds. -/
def kahnLoop (ops : List OperationInfo) (policy : List Nat → List Nat → List Nat) :
    Nat → List Nat → List Nat → List Nat → List (List Nat) →
    List Nat × List (List Nat)
  | 0, _, _, ordered, rounds => (ordered, rounds)
  | _ + 1, [], _, ordered, rounds => (ordered, rounds)
  | fuel + 1, idx :: rest, indeg, ordered, rounds =>
    let st := relax ops idx indeg
    kahnLoop ops policy fuel (policy rest st.2) st.1 (ordered ++ [idx])
      (rounds ++ [st.2])

/-- Simple topological order (src/model.rs, OnnxModel::topological_order):
first-in-first-out frontier, newly ready operations appended at the tail,
and an invalid-model error when not every operation was emitted. -/
def topological_order (ops : List OperationInfo) : Except Error (List Nat) :=
  let indeg := indegreeOf ops
  let queue0 := (List.range ops.length).filter (fun i => indeg.getD i 0 = 0)
  let r := kahnLoop ops (fun rest nr => rest ++ nr) (ops.length + 1) queue0 indeg [] []
  if r.1.length ≠ ops.length then
    .error (.invalidModel "Graph has cycles or unresolved dependencies")
  else .ok r.1

/-- Whether an operation consumes a declared model input
(the consumes_input closure of execution_order). -/
def consumesInput (ops : List OperationInfo) (minputs : List String) (idx : Nat) :
    Bool :=
  (ops.getD idx default).inputs.any (fun inp => minputs.contains inp)

/-- Stable sort of ready indices by the key "does not consume a model
input" (Rust sort_by_key is stable, and a stable sort by a Bool key is the
stable partition with the false entries first). -/
def execSort (c : Nat → Bool) (l : List Nat) : List Nat :=
  l.filter c ++ l.filter (fun i => !(c i))

/-- Queue insertion policy of execution_order: the sorted newly ready
indices are pushed one by one, input consumers to the front of the queue
and the others to the back. -/
def execPush (c : Nat → Bool) (rest nr : List Nat) : List Nat :=
  (execSort c nr).foldl (fun q cidx => if c cidx then cidx :: q else q ++ [cidx]) rest

/-- Instrumented run of execution_order: the emitted order together with
the ready rounds, the initial ready set first. -/
def execRun (ops : List OperationInfo) (minputs : List String) :
    List Nat × List (List Nat) :=
  let c := consumesInput ops minputs
  let indeg := indegreeOf ops
  let ready := (List.range ops.length).filter (fun i => indeg.getD i 0 = 0)
  let queue0 := (execSort c ready).foldl (fun q i => q ++ [i]) []
  let r := kahnLoop ops (execPush c) (ops.length + 1) queue0 indeg [] []
  (r.1, ready :: r.2)

/-- Execution-optimised topological order (src/model.rs,
OnnxModel::execution_order): the frontier is seeded with the ready
operations sorted so that input consumers come first, newly ready input
consumers are pushed to the front and parameter-only operations to the
back, with the same failure mode as the simple order. -/
def execution_order (ops : List OperationInfo) (minputs : List String) :
    Except Error (List Nat) :=
  let r := execRun ops minputs
  if r.1.length ≠ ops.length then
    .error (.invalidModel "Graph has cycles or unresolved dependencies")
  else .ok r.1

/-- Dependency edge of the operation graph: some non-empty tensor name is
an output of the first operation and an input of the second. -/
def edgeb (ops : List OperationInfo) (j i : Nat) : Bool :=
  (ops.getD j default).outputs.any
    (fun t => ¬ t.isEmpty && (ops.getD i default).inputs.contains t)

/-- Acyclicity of the operation dependency graph, expressed by a ranking
function that strictly increases along every edge. -/
def Acyclic (ops : List OperationInfo) : Prop :=
  ∃ rank : Nat → Nat, ∀ j i, edgeb ops j i = true → rank j < rank i

/-- Presence of a dependency cycle: a chain of edges that returns to its
starting operation. -/
def HasCycle (ops : List OperationInfo) : Prop :=
  ∃ a l, List.Chain (fun x y => edgeb ops x y = true) a (l ++ [a])

/-- Uniqueness of producers: among all operations, the non-empty output
names are pairwise distinct (no tensor is produced twice). -/
def uniqueOutputs (ops : List OperationInfo) : Prop :=
  ((ops.map (fun op => op.outputs.filter (fun out => ¬ out.isEmpty))).flatten).Nodup

/-!
Proof-support definitions for the scheduling development.
-/

/-- Number of non-empty input occurrences of operation i whose producer has
not been emitted yet; the loop invariant value of the indegree entry. -/
def Dcount (ops : List OperationInfo) (i : Nat) (ord : List Nat) : Nat :=
  (ops.getD i default).inputs.countP
    (fun t => ¬ t.isEmpty &&
      (match prodIdx ops t with
       | some p => ¬ ord.contains p
       | none => false))

/-- Number of non-empty input occurrences of operation i produced by
operation h. -/
def DPc (ops : List OperationInfo) (i h : Nat) : Nat :=
  (ops.getD i default).inputs.countP
    (fun t => ¬ t.isEmpty && (prodIdx ops t == some h))

/-- Flattened list of consumer visits performed when operation idx is
dequeued, in visit order. -/
def flatCons (ops : List OperationInfo) (idx : Nat) : List Nat :=
  ((ops.getD idx default).outputs.filter (fun o => ¬ o.isEmpty)).flatMap
    (consumersOf ops)

/-- Decrement fold over a visit list starting from an indegree vector and
an empty newly ready accumulator. -/
def foldDec (l : List Nat) (d : List Nat) : List Nat × List Nat :=
  l.foldl decStep (d, [])

/-- One element occurs before another in a list. -/
def SplitBefore (l : List Nat) (a b : Nat) : Prop :=
  ∃ u v w, l = u ++ a :: v ++ b :: w

/-- Per-pair scheduling state used by the round-priority invariant: the pair
is already emitted in order, or split across emitted and queued, or both
queued in order. -/
def PairState (queue ordered : List Nat) (a b : Nat) : Prop :=
  SplitBefore ordered a b ∨ (a ∈ ordered ∧ b ∈ queue) ∨ SplitBefore queue a b

/-!
Concrete models used by the counterexamples and witnesses below.
-/

/-- Initializer tensor named W with sixteen raw bytes. -/
def exTensorW : TensorProto :=
  ⟨some "W", [2, 2], some 1, some (List.replicate 16 0), [], [], [], [], [], []⟩

/-- Shape-only value info record reusing the name W. -/
def exValueInfoW : ValueInfoProto :=
  ⟨some "W",
    some ⟨some (.tensorType ⟨some 1, some ⟨[⟨some (.dimValue 2)⟩, ⟨some (.dimValue 2)⟩]⟩⟩)⟩⟩

/-- Model whose graph holds the data-bearing initializer W and a later
shape-only value info declaration for the same name. -/
def exModelC1 : ModelProto :=
  ⟨some ⟨[], [exTensorW], [], [], [exValueInfoW]⟩, none, none, none⟩

/-- Four-operation model with a duplicated producer: A and B both output x,
C consumes x, D produces the tensor z consumed by B. -/
def exOpsDup : List OperationInfo :=
  [⟨"A", "Op", [], ["x"], []⟩,
   ⟨"B", "Op", ["z"], ["x"], []⟩,
   ⟨"C", "Op", ["x"], ["w"], []⟩,
   ⟨"D", "Op", [], ["z"], []⟩]

/-- Ranking witnessing that the duplicated-producer model is acyclic. -/
def exRankDup : Nat → Nat := fun k => [0, 2, 3, 1].getD k 0

/-- Cyclic model with a duplicated producer: A and B form a two-cycle
through x and y while C also outputs y with no inputs. -/
def exOpsCycDup : List OperationInfo :=
  [⟨"A", "Op", ["y"], ["x"], []⟩,
   ⟨"B", "Op", ["x"], ["y"], []⟩,
   ⟨"C", "Op", [], ["y"], []⟩]

/-- Plain two-operation cycle: each operation produces the sole input of
the other. -/
def exOpsTwoCycle : List OperationInfo :=
  [⟨"A", "Op", ["y"], ["x"], []⟩,
   ⟨"B", "Op", ["x"], ["y"], []⟩]

/-- Small acyclic chain with unique producers. -/
def exOpsChain : List OperationInfo :=
  [⟨"P", "Op", ["in"], ["t"], []⟩,
   ⟨"Q", "Op", ["t"], ["u"], []⟩]

/-- Two independent ready operations: K consumes only the weight w, L
consumes the declared model input inp. -/
def exOpsPrio : List OperationInfo :=
  [⟨"K", "Op", ["w"], ["a"], []⟩,
   ⟨"L", "Op", ["inp"], ["b"], []⟩]

/-- Tensor with six raw bytes, used for the alignment witness. -/
def exTensorSix : OnnxTensor :=
  ⟨"t", [6], .uint8, some ⟨some "t", [6], some 2, some [0, 1, 2, 3, 4, 5], [], [], [], [], [], []⟩⟩

/-- One-hundred byte file used for the external data bounds witness. -/
def exFile100 : List UInt8 := (List.range 100).map UInt8.ofNat

/-- File system with a single four byte external file. -/
def exFs : String → Option (List UInt8) :=
  fun p => if p = "m/w.bin" then some [0, 1, 2, 3] else none

/-- Fresh loader over the model directory m. -/
def exLoader : ExternalDataLoader := ⟨"m", []⟩

/-- Out-of-range request against the four byte file. -/
def exInfoBad : ExternalDataInfo := ⟨"w.bin", some 0, some 10⟩

/-- Attribute message with the unsupported type tag 5. -/
def exAttr5 : AttributeProto :=
  ⟨some "a", some 5, none, none, none, none, [], [], []⟩

/-- Attribute message with no type tag at all. -/
def exAttrNone : AttributeProto :=
  ⟨some "a", none, none, none, none, none, [], [], []⟩

/-- Type declaration with one literal and one symbolic dimension. -/
def exTensorType : TensorTypeProto :=
  ⟨some 1, some ⟨[⟨some (.dimValue 2)⟩, ⟨some (.dimParam "N")⟩]⟩⟩

/-- Type declaration with no shape message. -/
def exTensorTypeNoShape : TensorTypeProto := ⟨some 1, none⟩

/-!
Theorems.  Each claim is settled by one theorem below; shared helper
lemmas precede them.
-/

theorem as_slice_eq_flatten (d : TensorData) :
    d.as_slice =
      (match d with
       | .raw b => b
       | .numeric b => b
       | .strings parts => parts.flatten) := by
  cases d with
  | raw b => rfl
  | numeric b => rfl
  | strings parts =>
    show TensorData.as_slice (.strings parts) = parts.flatten
    unfold TensorData.as_slice
    rcases parts with _ | ⟨p, _ | ⟨q, rest⟩⟩ <;> simp [List.headI]

/-- C10: for Raw and Numeric data, is_empty holds exactly when len is zero;
for Strings, is_empty holds exactly when the element vector is empty, so a
non-empty vector of empty string elements has len zero but is not empty. -/
theorem tensorData_len_is_empty (td : TensorData) :
    ((∃ b, td = .raw b ∨ td = .numeric b) → (td.is_empty = true ↔ td.len = 0)) ∧
    (∀ parts, td = .strings parts →
      ((td.is_empty = true ↔ parts = []) ∧
        (parts ≠ [] → (∀ b ∈ parts, b = []) →
          td.len = 0 ∧ td.is_empty = false))) := by
  constructor
  · rintro ⟨b, hb | hb⟩ <;> subst hb <;>
      simp [TensorData.is_empty, TensorData.len, List.isEmpty_iff, List.length_eq_zero]
  · rintro parts rfl
    refine ⟨by simp [TensorData.is_empty, List.isEmpty_iff], ?_⟩
    intro hne hall
    refine ⟨?_, by simpa [TensorData.is_empty, List.isEmpty_iff] using hne⟩
    show (parts.map List.length).sum = 0
    apply List.sum_eq_zero
    intro x hx
    rcases List.mem_map.mp hx with ⟨b, hb, rfl⟩
    simp [hall b hb]

theorem tensorData_len_is_empty_witness :
    (TensorData.strings [[]]).len = 0 ∧ (TensorData.strings [[]]).is_empty = false ∧
      ((TensorData.raw []).is_empty = true ↔ (TensorData.raw []).len = 0) := by
  refine ⟨?_, ?_, ?_⟩
  · exact ((tensorData_len_is_empty (.strings [[]])).2 [[]] rfl).2 (by simp) (by simp) |>.1
  · exact ((tensorData_len_is_empty (.strings [[]])).2 [[]] rfl).2 (by simp) (by simp) |>.2
  · exact (tensorData_len_is_empty (.raw [])).1 ⟨[], Or.inl rfl⟩

theorem getD_take_drop (data : List UInt8) (s m k : Nat) (hk : k < m)
    (hm : s + m ≤ data.length) :
    ((data.drop s).take m).getD k 0 = data.getD (s + k) 0 := by
  have h1 : k < (data.drop s).length := by simp [List.length_drop]; omega
  have h2 : s + k < data.length := by omega
  rw [List.getD_eq_getElem?_getD, List.getD_eq_getElem?_getD,
    List.getElem?_take_of_lt hk, List.getElem?_drop]

/-- C4: external data slicing with start the offset (default zero) and stop
the saturating sum with the length (default end of file) fails with an
invalid-model error whenever start or stop exceeds the file size, and
otherwise returns exactly the bytes of the requested range, never
clamping. -/
theorem slice_data_bounds (data : List UInt8) (info : ExternalDataInfo)
    (start stop : Nat) (hstart : start = info.offset.getD 0)
    (hstop : stop =
      (match info.length with
       | some len => satAdd start len
       | none => data.length)) :
    ((start > data.length ∨ stop > data.length) →
      ∃ msg, slice_data data info = .error (.invalidModel msg)) ∧
    (start ≤ data.length → stop ≤ data.length →
      ∃ out, slice_data data info = .ok out ∧
        out.length = stop - start ∧
        ∀ k, k < out.length →
          out.getD k 0 = data.getD (start + k) 0) := by
  subst hstart
  subst hstop
  constructor
  · intro h
    simp only [slice_data]
    split_ifs with h1 h2
    · exact ⟨_, rfl⟩
    · exact ⟨_, rfl⟩
    · omega
  · intro h1 h2
    simp only [slice_data]
    split_ifs with hb1 hb2
    · omega
    · omega
    · refine ⟨_, rfl, ?_, ?_⟩
      · simp [List.length_take, List.length_drop]; omega
      · intro k hk
        simp only [List.length_take, List.length_drop] at hk
        exact getD_take_drop data _ _ k (by omega) (by omega)

theorem slice_data_bounds_witness :
    (∃ msg, slice_data exFile100 ⟨"f", some 90, some 20⟩ = .error (.invalidModel msg)) ∧
    (∃ out, slice_data exFile100 ⟨"f", some 90, some 10⟩ = .ok out ∧
      out.length = 10 ∧ out.getD 0 0 = exFile100.getD 90 0) := by
  have h1 := (slice_data_bounds exFile100 ⟨"f", some 90, some 20⟩ 90 (satAdd 90 20)
    rfl rfl).1
  have h2 := (slice_data_bounds exFile100 ⟨"f", some 90, some 10⟩ 90 (satAdd 90 10)
    rfl rfl).2
  refine ⟨h1 ?_, ?_⟩
  · right
    show satAdd 90 20 > exFile100.length
    decide
  · rcases h2 (by decide) (by decide) with ⟨out, hout, hlen, hval⟩
    have hlen10 : out.length = 10 := by
      rw [hlen]; decide
    refine ⟨out, hout, hlen10, ?_⟩
    have := hval 0 (by omega)
    simpa using this


theorem chunksAux_length (w : Nat) (hw : 0 < w) :
    ∀ fuel l, l.length % w = 0 → l.length ≤ fuel →
      (chunksAux w l fuel).length = l.length / w := by
  intro fuel
  induction fuel with
  | zero =>
    intro l hmod hle
    have h0 : l.length = 0 := by omega
    simp [chunksAux, h0]
  | succ n ih =>
    intro l hmod hle
    by_cases hl : l.isEmpty
    · have h0 : l.length = 0 := by
        simpa [List.isEmpty_iff, List.length_eq_zero] using hl
      simp [chunksAux, hl, h0]
    · have hpos : 0 < l.length := by
        cases l with
        | nil => simp at hl
        | cons a t => simp
      have hdvd : w ∣ l.length := Nat.dvd_of_mod_eq_zero hmod
      have hwle : w ≤ l.length := Nat.le_of_dvd hpos hdvd
      obtain ⟨c, hc⟩ := hdvd
      have hcpos : c ≠ 0 := by
        rintro rfl
        omega
      have hdl : (l.drop w).length = w * (c - 1) := by
        rw [List.length_drop, hc]
        cases c with
        | zero => omega
        | succ m => simp [Nat.mul_succ]
      have hmod2 : (l.drop w).length % w = 0 := by
        rw [hdl]
        simp [Nat.mul_mod_right]
      have hle2 : (l.drop w).length ≤ n := by
        rw [List.length_drop]
        omega
      have hrec := ih (l.drop w) hmod2 hle2
      have hlf : l.isEmpty = false := by
        rwa [Bool.not_eq_true] at hl
      have hdiv1 : (l.drop w).length / w = c - 1 := by
        rw [hdl, Nat.mul_div_cancel_left _ hw]
      have hdiv2 : l.length / w = c := by
        rw [hc, Nat.mul_div_cancel_left _ hw]
      simp only [chunksAux, hlf, Bool.false_eq_true, if_false, List.length_cons,
        hrec, hdiv1, hdiv2]
      omega

theorem copy_data_as_eq (t : OnnxTensor) (W : Nat) (typeName : String)
    (d : TensorData) (hd : t.data = .ok d) (hW0 : ¬ W = 0) :
    t.copy_data_as W typeName =
      (if d.as_slice.isEmpty then .ok []
       else if d.as_slice.length % W = 0 then .ok (chunks W d.as_slice)
       else .error (.dataConversion
         ("Data size " ++ toString d.as_slice.length ++
           " not aligned to type size " ++ toString W ++ " for " ++ typeName))) := by
  unfold OnnxTensor.copy_data_as
  rw [hd]
  cases d with
  | raw b => simp [TensorData.as_slice, hW0]
  | numeric b => simp [TensorData.as_slice, hW0]
  | strings parts => simp [as_slice_eq_flatten, hW0]

/-- C3: for a positive element width W (the source rejects zero width
separately), copy_data_as on a tensor whose resolved byte view has length N
succeeds exactly when N is a multiple of W, giving N / W elements, and
otherwise fails with a data-conversion error whose message cites N, W and
the target type name; the function is total, so it never panics or
truncates. -/
theorem copy_data_as_alignment (t : OnnxTensor) (W : Nat) (typeName : String)
    (d : TensorData) (hW : 0 < W) (hd : t.data = .ok d) :
    (d.as_slice.length % W = 0 →
      ∃ v, t.copy_data_as W typeName = .ok v ∧ v.length = d.as_slice.length / W) ∧
    (d.as_slice.length % W ≠ 0 →
      t.copy_data_as W typeName = .error (.dataConversion
        ("Data size " ++ toString d.as_slice.length ++
          " not aligned to type size " ++ toString W ++ " for " ++ typeName))) := by
  have hW0 : ¬ W = 0 := by omega
  rw [copy_data_as_eq t W typeName d hd hW0]
  constructor
  · intro hmod
    by_cases hempty : d.as_slice.isEmpty
    · have hlen0 : d.as_slice.length = 0 := by
        simpa [List.isEmpty_iff, List.length_eq_zero] using hempty
      refine ⟨[], ?_, by simp [hlen0]⟩
      simp [hempty]
    · refine ⟨chunks W d.as_slice, ?_, ?_⟩
      · simp [hempty, hmod]
      · exact chunksAux_length W hW d.as_slice.length d.as_slice hmod (le_refl _)
  · intro hmod
    have hempty : ¬ d.as_slice.isEmpty := by
      intro hc
      have hlen0 : d.as_slice.length = 0 := by
        simpa [List.isEmpty_iff, List.length_eq_zero] using hc
      simp [hlen0] at hmod
    simp [hempty, hmod]

theorem copy_data_as_alignment_witness :
    exTensorSix.data = .ok (.raw [0, 1, 2, 3, 4, 5]) ∧
    exTensorSix.copy_data_as 4 "f32" = .error (.dataConversion
      "Data size 6 not aligned to type size 4 for f32") ∧
    (∃ v, exTensorSix.copy_data_as 2 "u16" = .ok v ∧ v.length = 3) := by
  have hd : exTensorSix.data = .ok (.raw [0, 1, 2, 3, 4, 5]) := by decide
  refine ⟨hd, ?_, ?_⟩
  · have h := (copy_data_as_alignment exTensorSix 4 "f32" (.raw [0, 1, 2, 3, 4, 5])
      (by omega) hd).2 (by decide)
    simpa using h
  · have h := (copy_data_as_alignment exTensorSix 2 "u16" (.raw [0, 1, 2, 3, 4, 5])
      (by omega) hd).1 (by decide)
    simpa using h

theorem collectStrings_error_utf8 : ∀ l e, collectStrings l = .error e → e = .utf8 := by
  intro l
  induction l with
  | nil =>
    intro e h
    simp [collectStrings] at h
  | cons b rest ih =>
    intro e h
    unfold collectStrings at h
    cases hfb : from_utf8 b with
    | none =>
      rw [hfb] at h
      cases h
      rfl
    | some s =>
      rw [hfb] at h
      cases hcr : collectStrings rest with
      | error e2 =>
        rw [hcr] at h
        simp only [Except.error.injEq] at h
        rw [← h]
        exact ih e2 hcr
      | ok ss =>
        rw [hcr] at h
        cases h

/-- C8: the attribute parser treats exactly the tags 1 (float), 2 (int),
3 (string), 4 (tensor), 6 (float array), 7 (int array) and 8 (string
array) as supported; any other tag, including an absent tag read as 0, is
rejected with an unsupported-feature error whose message names the numeric
tag, and a supported tag is never rejected as unsupported. -/
theorem parse_attribute_closed_set (attr : AttributeProto) :
    (attr.type.getD 0 ∉ ([1, 2, 3, 4, 6, 7, 8] : List Int) →
      parse_attribute_proto attr =
        .error (.unsupported ("attribute type: " ++ toString (attr.type.getD 0)))) ∧
    (attr.type.getD 0 ∈ ([1, 2, 3, 4, 6, 7, 8] : List Int) →
      ∀ msg, parse_attribute_proto attr ≠ .error (.unsupported msg)) := by
  constructor
  · intro hout
    simp only [List.mem_cons, List.not_mem_nil, or_false, not_or] at hout
    obtain ⟨h1, h2, h3, h4, h6, h7, h8⟩ := hout
    simp [parse_attribute_proto, h1, h2, h3, h4, h6, h7, h8]
  · intro hin msg
    simp only [List.mem_cons, List.not_mem_nil, or_false] at hin
    rcases hin with h | h | h | h | h | h | h
    · simp [parse_attribute_proto, h]
    · simp [parse_attribute_proto, h]
    · rcases hfb : from_utf8 (attr.s.getD []) with _ | s <;>
        simp [parse_attribute_proto, h, hfb]
    · rcases hat : attr.t with _ | tensor <;>
        simp [parse_attribute_proto, h, hat, tensor_from_proto]
    · simp [parse_attribute_proto, h]
    · simp [parse_attribute_proto, h]
    · rcases hcs : collectStrings attr.strings with e | ss
      · have he : e = .utf8 := collectStrings_error_utf8 _ _ hcs
        subst he
        simp [parse_attribute_proto, h, hcs]
      · simp [parse_attribute_proto, h, hcs]

theorem parse_attribute_closed_set_witness :
    parse_attribute_proto exAttr5 = .error (.unsupported "attribute type: 5") ∧
    parse_attribute_proto exAttrNone = .error (.unsupported "attribute type: 0") ∧
    ∀ msg, parse_attribute_proto ⟨some "a", some 7, none, none, none, none, [], [3], []⟩ ≠
      .error (.unsupported msg) := by
  refine ⟨?_, ?_, ?_⟩
  · have h := (parse_attribute_closed_set exAttr5).1 (by decide)
    simpa using h
  · have h := (parse_attribute_closed_set exAttrNone).1 (by decide)
    simpa using h
  · exact (parse_attribute_closed_set _).2 (by decide)

/-- C9: every tensor successfully built from a type declaration has a shape
with exactly one entry per source dimension, each entry being the literal
dimension value when present and -1 otherwise, and a declaration without a
shape message yields the empty shape. -/
theorem from_tensor_type_shape (name : String) (tt : TensorTypeProto)
    (t : OnnxTensor) (h : OnnxTensor.from_tensor_type name tt = .ok t) :
    (t.shape.length =
      (match tt.shape with
       | some sp => sp.dim.length
       | none => 0)) ∧
    (∀ sp, tt.shape = some sp → ∀ i, i < sp.dim.length →
      t.shape.getD i 0 =
        (match (sp.dim.getD i ⟨none⟩).value with
         | some (.dimValue v) => v
         | _ => -1)) ∧
    (tt.shape = none → t.shape = []) := by
  have hshape : t.shape = shapeOfTensorType tt := by
    unfold OnnxTensor.from_tensor_type at h
    cases het : tt.elem_type with
    | none =>
      rw [het] at h
      cases h
    | some elem_type =>
      rw [het] at h
      by_cases hz : elem_type = 0
      · simp [hz] at h
      · have h2 : (Except.ok
            (⟨name, shapeOfTensorType tt, PDataType.from_onnx_type elem_type,
              none⟩ : OnnxTensor) : Except Error OnnxTensor) = Except.ok t := by
          rw [← h]
          simp [hz]
        have h3 := Except.ok.inj h2
        rw [← h3]
  refine ⟨?_, ?_, ?_⟩
  · rw [hshape]
    unfold shapeOfTensorType
    cases tt.shape with
    | none => rfl
    | some sp => simp
  · intro sp hsp i hi
    rw [hshape]
    unfold shapeOfTensorType
    rw [hsp]
    rw [List.getD_eq_getElem?_getD, List.getD_eq_getElem?_getD,
      List.getElem?_map]
    rw [List.getElem?_eq_getElem hi]
    simp
  · intro hnone
    rw [hshape]
    unfold shapeOfTensorType
    rw [hnone]

theorem from_tensor_type_shape_witness :
    (∃ t, OnnxTensor.from_tensor_type "x" exTensorType = .ok t ∧
      t.shape.length = 2 ∧ t.shape.getD 0 0 = 2 ∧ t.shape.getD 1 0 = -1) ∧
    (∃ t, OnnxTensor.from_tensor_type "x" exTensorTypeNoShape = .ok t ∧
      t.shape = []) := by
  constructor
  · refine ⟨⟨"x", [2, -1], .float, none⟩, by decide, ?_, ?_, ?_⟩
    · have h := (from_tensor_type_shape "x" exTensorType
        ⟨"x", [2, -1], .float, none⟩ (by decide)).1
      simpa [exTensorType] using h
    · have h := (from_tensor_type_shape "x" exTensorType
        ⟨"x", [2, -1], .float, none⟩ (by decide)).2.1
        ⟨[⟨some (.dimValue 2)⟩, ⟨some (.dimParam "N")⟩]⟩ rfl 0 (by decide)
      simpa using h
    · have h := (from_tensor_type_shape "x" exTensorType
        ⟨"x", [2, -1], .float, none⟩ (by decide)).2.1
        ⟨[⟨some (.dimValue 2)⟩, ⟨some (.dimParam "N")⟩]⟩ rfl 1 (by decide)
      simpa using h
  · refine ⟨⟨"x", [], .float, none⟩, by decide, ?_⟩
    exact (from_tensor_type_shape "x" exTensorTypeNoShape
      ⟨"x", [], .float, none⟩ (by decide)).2.2 rfl

/-- C7 (behaviour at the failing input): on a cache miss whose requested
range exceeds the file size, load_data reads the file, returns the
invalid-model error, and leaves the cache without an entry for the
location, so an identical second call reads the file again; after a
successful first call the second call is served from the cache without a
read.  This contradicts the claimed insert-then-slice order, under which
the read would happen at most once per location. -/
theorem load_data_failed_slice_not_cached :
    (load_data exFs exLoader exInfoBad).didRead = true ∧
    (load_data exFs exLoader exInfoBad).result =
      .error (.invalidModel "External data range 0..10 exceeds file size 4") ∧
    (load_data exFs exLoader exInfoBad).loader = exLoader ∧
    (load_data exFs (load_data exFs exLoader exInfoBad).loader exInfoBad).didRead
      = true ∧
    (load_data exFs exLoader ⟨"w.bin", some 1, some 2⟩).didRead = true ∧
    (load_data exFs exLoader ⟨"w.bin", some 1, some 2⟩).result = .ok [1, 2] ∧
    (load_data exFs (load_data exFs exLoader ⟨"w.bin", some 1, some 2⟩).loader
      ⟨"w.bin", some 1, some 2⟩).didRead = false := by
  decide

/-- C1 counterexample: in the concrete model exModelC1 the initializer W is
data-bearing (its adapted record holds the sixteen raw bytes), yet after
load_from_bytes the registry entry for W is the later shape-only record,
whose payload is gone: the value_info pass erased the initializer data. -/
theorem shape_only_overwrites_initializer_counterexample :
    tensor_from_proto exTensorW =
      .ok ⟨"W", [2, 2], .float32, some (List.replicate 16 0)⟩ ∧
    (load_from_bytes exModelC1).map (fun om => List.lookup "W" om.tensors) =
      .ok (some ⟨"W", [2, 2], .float32, none⟩) := by
  constructor
  · decide
  · decide

theorem lookup_shape_insert (tensors : List (String × TensorInfo))
    (name name2 : String) (ti : TensorInfo) (hti : ti.raw_bytes = none)
    (hP : ∃ t0, List.lookup name tensors = some t0 ∧ t0.raw_bytes = none) :
    ∃ t1, List.lookup name ((name2, ti) :: tensors) = some t1 ∧
      t1.raw_bytes = none := by
  by_cases he : name == name2
  · exact ⟨ti, by simp [List.lookup, he], hti⟩
  · obtain ⟨t0, h0, h1⟩ := hP
    refine ⟨t0, ?_, h1⟩
    have he2 : (name == name2) = false := by
      rwa [Bool.not_eq_true] at he
    simp [List.lookup, he2, h0]

theorem ingestValueInfos_preserves (l : List ValueInfoProto)
    (tensors : List (String × TensorInfo)) (name : String)
    (hP : ∃ t0, List.lookup name tensors = some t0 ∧ t0.raw_bytes = none) :
    ∃ t1, List.lookup name (ingestValueInfos l tensors) = some t1 ∧
      t1.raw_bytes = none := by
  induction l generalizing tensors with
  | nil => exact hP
  | cons vi rest ih =>
    have hstep : ingestValueInfos (vi :: rest) tensors =
        ingestValueInfos rest
          (match vi.type with
           | some { value := some (.tensorType tensor_type) } =>
             if (vi.name.getD "") ≠ "" then
               (vi.name.getD "", tensorInfoFromTensorType (vi.name.getD "") tensor_type)
                 :: tensors
             else tensors
           | _ => tensors) := rfl
    rw [hstep]
    apply ih
    rcases hvt : vi.type with _ | ⟨_ | tv⟩
    · exact hP
    · exact hP
    · cases tv with
      | otherValue => simp only []; exact hP
      | tensorType tensor_type =>
        simp only []
        by_cases hn : (vi.name.getD "") ≠ ""
        · rw [if_pos hn]
          exact lookup_shape_insert tensors name _ _ rfl hP
        · rw [if_neg hn]
          exact hP

theorem ingestValueInfos_ingests (l : List ValueInfoProto)
    (tensors : List (String × TensorInfo)) (vi : ValueInfoProto)
    (hvi : vi ∈ l) (hname : vi.name.getD "" ≠ "")
    (htt : ∃ tt, vi.type = some ⟨some (.tensorType tt)⟩) :
    ∃ t1, List.lookup (vi.name.getD "")
        (ingestValueInfos l tensors) = some t1 ∧ t1.raw_bytes = none := by
  induction l generalizing tensors with
  | nil => cases hvi
  | cons v rest ih =>
    have hstep : ingestValueInfos (v :: rest) tensors =
        ingestValueInfos rest
          (match v.type with
           | some { value := some (.tensorType tensor_type) } =>
             if (v.name.getD "") ≠ "" then
               (v.name.getD "", tensorInfoFromTensorType (v.name.getD "") tensor_type)
                 :: tensors
             else tensors
           | _ => tensors) := rfl
    rcases List.mem_cons.mp hvi with rfl | hmem
    · obtain ⟨tt, htt⟩ := htt
      have hred : ingestValueInfos (vi :: rest) tensors =
          ingestValueInfos rest
            ((vi.name.getD "", tensorInfoFromTensorType (vi.name.getD "") tt)
              :: tensors) := by
        simp only [ingestValueInfos, List.foldl_cons, htt, hname]
        simp [hname]
      rw [hred]
      apply ingestValueInfos_preserves
      refine ⟨tensorInfoFromTensorType (vi.name.getD "") tt, ?_, rfl⟩
      simp [List.lookup]
    · rw [hstep]
      exact ih _ hmem

/-- C1 amended: load_from_bytes gives later shape-only passes precedence.
Whenever a non-empty tensor name is ingested by the value_info, graph input
or graph output pass (its record having a tensor type declaration), the
final registry entry for that name is a shape-only record carrying no
data, even when a data-bearing initializer of the same name was ingested
first: the shape-only record erases the initializer data. -/
theorem shape_only_pass_wins (model : ModelProto) (om : OnnxModel)
    (g : GraphProto) (hload : load_from_bytes model = .ok om)
    (hg : model.graph = some g) (vi : ValueInfoProto)
    (hmem : vi ∈ g.value_info ∨ vi ∈ g.input ∨ vi ∈ g.output)
    (hname : vi.name.getD "" ≠ "")
    (htt : ∃ tt, vi.type = some ⟨some (.tensorType tt)⟩) :
    ∃ t1, List.lookup (vi.name.getD "") om.tensors = some t1 ∧
      t1.raw_bytes = none := by
  simp only [load_from_bytes, hg] at hload
  cases hii : ingestInitializers g.initializer [] with
  | error e =>
    rw [hii] at hload
    cases hload
  | ok tensors0 =>
    rw [hii] at hload
    simp only [] at hload
    cases hin : ingestNodes g.node with
    | error e =>
      rw [hin] at hload
      cases hload
    | ok operations =>
      rw [hin] at hload
      simp only [Except.ok.injEq] at hload
      have htens : om.tensors =
          ingestValueInfos g.output
            (ingestValueInfos g.input (ingestValueInfos g.value_info tensors0)) := by
        rw [← hload]
      rw [htens]
      rcases hmem with hm | hm | hm
      · apply ingestValueInfos_preserves
        apply ingestValueInfos_preserves
        exact ingestValueInfos_ingests _ _ _ hm hname htt
      · apply ingestValueInfos_preserves
        exact ingestValueInfos_ingests _ _ _ hm hname htt
      · exact ingestValueInfos_ingests _ _ _ hm hname htt

theorem shape_only_pass_wins_witness :
    ∃ t1, List.lookup "W"
        ((load_from_bytes exModelC1).toOption.map OnnxModel.tensors |>.getD [])
        = some t1 ∧ t1.raw_bytes = none := by
  have hok : ∃ om, load_from_bytes exModelC1 = .ok om := by
    cases hl : load_from_bytes exModelC1 with
    | error e =>
      have : (load_from_bytes exModelC1).map (fun om => List.lookup "W" om.tensors)
          = .ok (some ⟨"W", [2, 2], .float32, none⟩) := by decide
      rw [hl] at this
      cases this
    | ok om => exact ⟨om, rfl⟩
  obtain ⟨om, hom⟩ := hok
  have h := shape_only_pass_wins exModelC1 om (⟨[], [exTensorW], [], [], [exValueInfoW]⟩)
    hom rfl exValueInfoW (Or.inl (by simp [exValueInfoW]))
    (by decide)
    ⟨⟨some 1, some ⟨[⟨some (.dimValue 2)⟩, ⟨some (.dimValue 2)⟩]⟩⟩, rfl⟩
  have hwn : exValueInfoW.name.getD "" = "W" := by decide
  rw [hwn] at h
  rw [hom]
  simpa using h

/-!
Scheduling proofs, stage one: association list and enumeration helpers,
and the specifications of the producer index, the consumer index and the
indegree vector.
-/

theorem lookup_mem_of_eq_some {α β : Type} [BEq α] [LawfulBEq α]
    (l : List (α × β)) (a : α) (b : β) (h : List.lookup a l = some b) :
    (a, b) ∈ l := by
  induction l with
  | nil => simp [List.lookup] at h
  | cons p rest ih =>
    rw [List.lookup] at h
    by_cases he : a == p.1
    · rw [he] at h
      simp only [Option.some.injEq] at h
      have ha : a = p.1 := eq_of_beq he
      rw [ha, ← h, Prod.mk.eta]
      exact List.mem_cons_self _ _
    · have he2 : (a == p.1) = false := by
        rwa [Bool.not_eq_true] at he
      rw [he2] at h
      exact List.mem_cons_of_mem _ (ih h)

theorem lookup_isSome_of_mem {α β : Type} [BEq α] [LawfulBEq α]
    (l : List (α × β)) (a : α) (b : β) (h : (a, b) ∈ l) :
    (List.lookup a l).isSome := by
  induction l with
  | nil => cases h
  | cons p rest ih =>
    rw [List.lookup]
    by_cases he : a == p.1
    · rw [he]
      rfl
    · have he2 : (a == p.1) = false := by
        rwa [Bool.not_eq_true] at he
      rw [he2]
      rcases List.mem_cons.mp h with rfl | hm
      · simp at he
      · exact ih hm

theorem enumFrom_getD_mem {α : Type} [Inhabited α] :
    ∀ (l : List α) (s i : Nat), i < l.length →
      (s + i, l.getD i default) ∈ List.enumFrom s l := by
  intro l
  induction l with
  | nil => intro s i hi; simp at hi
  | cons a t ih =>
    intro s i hi
    rw [List.enumFrom_cons]
    cases i with
    | zero => exact List.mem_cons_self _ _
    | succ j =>
      right
      have := ih (s + 1) j (by simpa using hi)
      have harith : s + 1 + j = s + (j + 1) := by omega
      rw [harith] at this
      exact this

theorem mem_enum_getD {α : Type} [Inhabited α] (l : List α) (i : Nat)
    (hi : i < l.length) : (i, l.getD i default) ∈ l.enum := by
  have h := enumFrom_getD_mem l 0 i hi
  have h0 : 0 + i = i := by omega
  rw [h0] at h
  exact h

theorem enum_mem_elim {α : Type} [Inhabited α] (l : List α) (p : Nat × α)
    (h : p ∈ l.enum) : p.1 < l.length ∧ p.2 = l.getD p.1 default := by
  rcases p with ⟨i, x⟩
  have hef : (i, x) ∈ List.enumFrom 0 l := h
  have h2 := List.mem_enumFrom hef
  obtain ⟨-, hlt, hx⟩ := h2
  have hi : i < l.length := by simpa using hlt
  refine ⟨hi, ?_⟩
  rw [List.getD_eq_getElem?_getD, List.getElem?_eq_getElem hi]
  simp only [Nat.sub_zero] at hx
  simpa using hx

theorem prodIdx_some_elim (ops : List OperationInfo) (t : String) (p : Nat)
    (h : prodIdx ops t = some p) :
    ¬ t.isEmpty ∧ p < ops.length ∧ t ∈ (ops.getD p default).outputs := by
  have hmem := lookup_mem_of_eq_some _ _ _ h
  rcases List.mem_flatMap.mp hmem with ⟨q, hq, hin⟩
  rcases List.mem_map.mp hin with ⟨out, hout, heq⟩
  have hq2 := enum_mem_elim ops q hq
  obtain ⟨ho1, ho2⟩ := List.mem_filter.mp hout
  cases heq
  refine ⟨by simpa using ho2, hq2.1, ?_⟩
  rw [← hq2.2]
  exact ho1

theorem prodIdx_isSome_intro (ops : List OperationInfo) (t : String) (p : Nat)
    (hne : ¬ t.isEmpty) (hp : p < ops.length)
    (hout : t ∈ (ops.getD p default).outputs) :
    (prodIdx ops t).isSome := by
  apply lookup_isSome_of_mem (b := p)
  apply List.mem_flatMap.mpr
  refine ⟨(p, ops.getD p default), mem_enum_getD ops p hp, ?_⟩
  apply List.mem_map.mpr
  refine ⟨t, List.mem_filter.mpr ⟨hout, by simpa using hne⟩, rfl⟩

theorem uniqueOutputs_producer_unique (ops : List OperationInfo)
    (hu : uniqueOutputs ops) (t : String) (p q : Nat) (hne : ¬ t.isEmpty)
    (hp : p < ops.length) (hq : q < ops.length)
    (hop : t ∈ (ops.getD p default).outputs)
    (hoq : t ∈ (ops.getD q default).outputs) : p = q := by
  unfold uniqueOutputs at hu
  rw [List.nodup_flatten] at hu
  obtain ⟨-, hpair⟩ := hu
  rw [List.pairwise_iff_getElem] at hpair
  by_contra hpq
  have hlen : ∀ k, k < ops.length →
      (ops.map (fun op => op.outputs.filter (fun out => ¬ out.isEmpty))).length = ops.length := by
    simp
  have hmem : ∀ k, (hk : k < ops.length) →
      t ∈ (ops.getD k default).outputs →
      t ∈ (ops.map (fun op => op.outputs.filter (fun out => ¬ out.isEmpty))).get
        ⟨k, by simpa using hk⟩ := by
    intro k hk hmem2
    rw [List.get_eq_getElem, List.getElem_map]
    apply List.mem_filter.mpr
    refine ⟨?_, by simpa using hne⟩
    rw [List.getD_eq_getElem?_getD, List.getElem?_eq_getElem hk] at hmem2
    simpa using hmem2
  rcases Nat.lt_or_ge p q with hlt | hge
  · have hd := hpair p q (by simpa using hp) (by simpa using hq) hlt
    exact hd (hmem p hp hop) (hmem q hq hoq)
  · have hlt2 : q < p := by omega
    have hd := hpair q p (by simpa using hq) (by simpa using hp) hlt2
    exact hd (hmem q hq hoq) (hmem p hp hop)

theorem prodIdx_eq_iff (ops : List OperationInfo) (hu : uniqueOutputs ops)
    (t : String) (p : Nat) :
    prodIdx ops t = some p ↔
      (¬ t.isEmpty ∧ p < ops.length ∧ t ∈ (ops.getD p default).outputs) := by
  constructor
  · exact prodIdx_some_elim ops t p
  · rintro ⟨hne, hp, hout⟩
    have hsome := prodIdx_isSome_intro ops t p hne hp hout
    rcases hq : prodIdx ops t with _ | q
    · rw [hq] at hsome
      cases hsome
    · obtain ⟨-, hq2, hq3⟩ := prodIdx_some_elim ops t q hq
      have := uniqueOutputs_producer_unique ops hu t q p hne hq2 hp hq3 hout
      rw [this]

theorem countP_or_disjoint {α : Type} (p q : α → Bool) (l : List α)
    (hdis : ∀ s ∈ l, ¬ (p s = true ∧ q s = true)) :
    l.countP (fun s => p s || q s) = l.countP p + l.countP q := by
  induction l with
  | nil => simp
  | cons a t ih =>
    have ha := hdis a (List.mem_cons_self _ _)
    have ht : ∀ s ∈ t, ¬ (p s = true ∧ q s = true) := fun s hs =>
      hdis s (List.mem_cons_of_mem _ hs)
    rw [List.countP_cons, List.countP_cons, List.countP_cons, ih ht]
    cases hp : p a <;> cases hq : q a <;> simp_all <;> omega

theorem sum_count_eq_countP (outs ins : List String) (hnd : outs.Nodup) :
    (outs.map (fun t => ins.count t)).sum =
      ins.countP (fun s => outs.contains s) := by
  induction outs with
  | nil => simp [List.count]
  | cons o rest ih =>
    have hnd2 := List.nodup_cons.mp hnd
    rw [List.map_cons, List.sum_cons, ih hnd2.2]
    have hsplit : ins.countP (fun s => (o :: rest).contains s) =
        ins.countP (fun s => s == o) + ins.countP (fun s => rest.contains s) := by
      rw [← countP_or_disjoint]
      · apply List.countP_congr
        intro s _
        simp [List.contains_cons]
      · intro s _
        rintro ⟨h1, h2⟩
        have : s = o := eq_of_beq h1
        rw [this] at h2
        exact hnd2.1 (by simpa using h2)
    rw [hsplit, List.count]

theorem consumers_count_aux (t : String) (ht : ¬ t.isEmpty) :
    ∀ (l : List OperationInfo) (s i : Nat),
      List.count i ((List.enumFrom s l).flatMap
        (fun p => (p.2.inputs.filter (fun inp => ¬ inp.isEmpty && inp == t)).map
          (fun _ => p.1))) =
      if s ≤ i ∧ i < s + l.length then (l.getD (i - s) default).inputs.count t
      else 0 := by
  intro l
  induction l with
  | nil =>
    intro s i
    have hc : ¬ (s ≤ i ∧ i < s + ([] : List OperationInfo).length) := by
      simp only [List.length_nil, Nat.add_zero]
      omega
    rw [if_neg hc]
    simp
  | cons op rest ih =>
    intro s i
    rw [List.enumFrom_cons]
    have hflat : ((s, op) :: List.enumFrom (s + 1) rest).flatMap
        (fun p => (p.2.inputs.filter (fun inp => ¬ inp.isEmpty && inp == t)).map
          (fun _ => p.1)) =
        ((op.inputs.filter (fun inp => ¬ inp.isEmpty && inp == t)).map
          (fun _ => s)) ++
        (List.enumFrom (s + 1) rest).flatMap
          (fun p => (p.2.inputs.filter (fun inp => ¬ inp.isEmpty && inp == t)).map
            (fun _ => p.1)) := by
      simp [List.flatMap]
    have hfl : (op.inputs.filter (fun inp => ¬ inp.isEmpty && inp == t)).length =
        op.inputs.count t := by
      rw [← List.countP_eq_length_filter, List.count]
      apply List.countP_congr
      intro inp _
      constructor
      · intro hb
        exact (Bool.and_eq_true _ _ |>.mp hb).2
      · intro hb
        have hit : inp = t := eq_of_beq hb
        rw [hit]
        simpa using ht
    have hconst : (op.inputs.filter (fun inp => ¬ inp.isEmpty && inp == t)).map
        (fun _ => s) =
        List.replicate (op.inputs.count t) s := by
      rw [← hfl, ← List.map_const]
      rfl
    rw [hflat, List.count_append, ih (s + 1) i, hconst, List.count_replicate]
    by_cases hsi : s = i
    · subst hsi
      have h1 : (s == s) = true := by simp
      have h2 : ¬ (s + 1 ≤ s ∧ s < s + 1 + rest.length) := by omega
      have h3 : s ≤ s ∧ s < s + (op :: rest).length := by
        simp only [List.length_cons]
        omega
      rw [h1, if_pos rfl, if_neg h2, if_pos h3]
      have h4 : s - s = 0 := by omega
      rw [h4, List.getD_cons_zero]
      omega
    · have hbe : (s == i) = false := by simpa using hsi
      rw [hbe]
      simp only [Bool.false_eq_true, if_false, Nat.zero_add]
      by_cases hcond : s + 1 ≤ i ∧ i < s + 1 + rest.length
      · have hc2 : s ≤ i ∧ i < s + (op :: rest).length := by
          simp only [List.length_cons]
          omega
        rw [if_pos hcond, if_pos hc2]
        have hidx : i - s = (i - (s + 1)) + 1 := by omega
        rw [hidx, List.getD_cons_succ]
      · have hc2 : ¬ (s ≤ i ∧ i < s + (op :: rest).length) := by
          simp only [List.length_cons]
          omega
        rw [if_neg hcond, if_neg hc2]

theorem consumersOf_count (ops : List OperationInfo) (i : Nat) (t : String)
    (ht : ¬ t.isEmpty) :
    List.count i (consumersOf ops t) = (ops.getD i default).inputs.count t := by
  have h := consumers_count_aux t ht ops 0 i
  have henum : ops.enum = List.enumFrom 0 ops := rfl
  unfold consumersOf
  rw [henum, h]
  by_cases hi : i < ops.length
  · have hcnd : 0 ≤ i ∧ i < 0 + ops.length := by omega
    rw [if_pos hcnd]
    have h0 : i - 0 = i := by omega
    rw [h0]
  · have hc : ¬ (0 ≤ i ∧ i < 0 + ops.length) := by omega
    rw [if_neg hc]
    have hdef : ops.getD i default = default := List.getD_eq_default _ _ (by omega)
    have hin : (default : OperationInfo).inputs = [] := rfl
    rw [hdef, hin, List.count_nil]

theorem consumersOf_mem_lt (ops : List OperationInfo) (t : String) (j : Nat)
    (h : j ∈ consumersOf ops t) : j < ops.length := by
  unfold consumersOf at h
  rcases List.mem_flatMap.mp h with ⟨q, hq, hin⟩
  rcases List.mem_map.mp hin with ⟨-, -, heq⟩
  have hq2 := enum_mem_elim ops q hq
  rw [← heq]
  exact hq2.1

theorem indegreeOf_length (ops : List OperationInfo) :
    (indegreeOf ops).length = ops.length := by
  simp [indegreeOf]

theorem indegreeOf_getD (ops : List OperationInfo) (i : Nat)
    (hi : i < ops.length) :
    (indegreeOf ops).getD i 0 = Dcount ops i [] := by
  unfold indegreeOf Dcount
  rw [List.getD_eq_getElem?_getD, List.getElem?_map, List.getElem?_eq_getElem hi]
  simp only [Option.map_some', Option.getD_some]
  have hgd : ops[i] = ops.getD i default := by
    rw [List.getD_eq_getElem?_getD, List.getElem?_eq_getElem hi]
    rfl
  rw [hgd]
  apply List.countP_congr
  intro s _
  cases hps : prodIdx ops s <;> simp [hps]

theorem DPc_le_Dcount (ops : List OperationInfo) (i h : Nat) (ord : List Nat)
    (hnm : h ∉ ord) : DPc ops i h ≤ Dcount ops i ord := by
  apply List.countP_mono_left
  intro s _ hp
  rcases Bool.and_eq_true _ _ |>.mp hp with ⟨h1, h2⟩
  cases hps : prodIdx ops s with
  | none => rw [hps] at h2; simp at h2
  | some p =>
    rw [hps] at h2
    have hph : p = h := by simpa using h2
    subst hph
    simp only [h1, hps, Bool.true_and]
    simpa using hnm

theorem Dcount_pop (ops : List OperationInfo) (i h : Nat) (ord : List Nat)
    (hnm : h ∉ ord) :
    Dcount ops i ord = DPc ops i h + Dcount ops i (ord ++ [h]) := by
  unfold Dcount DPc
  rw [← countP_or_disjoint]
  · apply List.countP_congr
    intro s _
    cases hps : prodIdx ops s with
    | none => simp [hps]
    | some p =>
      by_cases hph : p = h
      · subst hph
        simp [hps, hnm]
      · by_cases hmem : p ∈ ord <;> simp [hps, hph, hmem]
  · intro s _
    rintro ⟨h1, h2⟩
    rcases Bool.and_eq_true _ _ |>.mp h1 with ⟨-, h1b⟩
    rcases Bool.and_eq_true _ _ |>.mp h2 with ⟨-, h2b⟩
    cases hps : prodIdx ops s with
    | none => rw [hps] at h1b; simp at h1b
    | some p =>
      rw [hps] at h1b h2b
      have hph : p = h := by simpa using h1b
      subst hph
      simp at h2b

theorem getD_pos_lt (d : List Nat) (i : Nat) (h : 0 < d.getD i 0) :
    i < d.length := by
  by_contra hc
  rw [List.getD_eq_default _ _ (by omega)] at h
  omega

theorem getD_set_self_nat (d : List Nat) (i : Nat) (a : Nat)
    (hi : i < d.length) : (d.set i a).getD i 0 = a := by
  rw [List.getD_eq_getElem?_getD, List.getElem?_set_self hi]
  rfl

theorem getD_set_ne_nat (d : List Nat) (i j : Nat) (a : Nat) (hij : i ≠ j) :
    (d.set i a).getD j 0 = d.getD j 0 := by
  rw [List.getD_eq_getElem?_getD, List.getElem?_set_ne hij,
    ← List.getD_eq_getElem?_getD]

theorem decStep_shape (d nr : List Nat) (c : Nat) :
    (0 < d.getD c 0 ∧ d.getD c 0 - 1 = 0 ∧
      decStep (d, nr) c = (d.set c (d.getD c 0 - 1), nr ++ [c])) ∨
    (0 < d.getD c 0 ∧ d.getD c 0 - 1 ≠ 0 ∧
      decStep (d, nr) c = (d.set c (d.getD c 0 - 1), nr)) ∨
    (d.getD c 0 = 0 ∧ decStep (d, nr) c = (d, nr)) := by
  by_cases h1 : 0 < d.getD c 0
  · by_cases h2 : d.getD c 0 - 1 = 0
    · exact Or.inl ⟨h1, h2, by rw [decStep, if_pos h1, if_pos h2]⟩
    · exact Or.inr (Or.inl ⟨h1, h2, by rw [decStep, if_pos h1, if_neg h2]⟩)
  · exact Or.inr (Or.inr ⟨by omega, by rw [decStep, if_neg h1]⟩)

theorem foldl_decStep_acc :
    ∀ (l : List Nat) (d nr : List Nat),
      (l.foldl decStep (d, nr)).1 = (l.foldl decStep (d, [])).1 ∧
      (l.foldl decStep (d, nr)).2 = nr ++ (l.foldl decStep (d, [])).2 := by
  intro l
  induction l with
  | nil => intro d nr; exact ⟨rfl, by simp⟩
  | cons c t ih =>
    intro d nr
    rw [List.foldl_cons, List.foldl_cons]
    rcases decStep_shape d nr c with ⟨h1, h2, he⟩ | ⟨h1, h2, he⟩ | ⟨h1, he⟩
    · have he0 : decStep (d, []) c = (d.set c (d.getD c 0 - 1), [] ++ [c]) := by
        rw [decStep, if_pos h1, if_pos h2]
      rw [he, he0]
      obtain ⟨ihl, ihr⟩ := ih (d.set c (d.getD c 0 - 1)) (nr ++ [c])
      obtain ⟨ihl2, ihr2⟩ := ih (d.set c (d.getD c 0 - 1)) ([] ++ [c])
      refine ⟨by rw [ihl, ihl2], ?_⟩
      rw [ihr, ihr2]
      simp
    · have he0 : decStep (d, []) c = (d.set c (d.getD c 0 - 1), []) := by
        rw [decStep, if_pos h1, if_neg h2]
      rw [he, he0]
      exact ih (d.set c (d.getD c 0 - 1)) nr
    · have he0 : decStep (d, []) c = (d, []) := by
        rw [decStep, if_neg (by omega)]
      rw [he, he0]
      exact ih d nr

theorem count_cons_self_nat (c : Nat) (t : List Nat) :
    (c :: t).count c = t.count c + 1 := by
  rw [List.count_cons]
  simp

theorem count_cons_ne_nat (c j : Nat) (t : List Nat) (h : j ≠ c) :
    (c :: t).count j = t.count j := by
  rw [List.count_cons]
  have hbe : (c == j) = false := by
    simp
    intro hcc
    exact h hcc.symm
  rw [hbe]
  simp

theorem foldDec_props :
    ∀ (l : List Nat) (d : List Nat),
      ((foldDec l d).1.length = d.length) ∧
      (∀ i, (foldDec l d).1.getD i 0 ≤ d.getD i 0) ∧
      (∀ i, d.getD i 0 = 0 → (foldDec l d).1.getD i 0 = 0) ∧
      (∀ i, i ∈ (foldDec l d).2 ↔
        (0 < d.getD i 0 ∧ (foldDec l d).1.getD i 0 = 0)) ∧
      (foldDec l d).2.Nodup := by
  intro l
  induction l with
  | nil =>
    intro d
    refine ⟨rfl, fun i => le_refl _, fun i h => h, fun i => ?_, List.nodup_nil⟩
    simp only [foldDec, List.foldl_nil, List.not_mem_nil, false_iff]
    rintro ⟨h1, h2⟩
    omega
  | cons c t ih =>
    intro d
    have hunf : foldDec (c :: t) d = t.foldl decStep (decStep (d, []) c) := rfl
    rcases decStep_shape d [] c with ⟨h1, h2, he⟩ | ⟨h1, h2, he⟩ | ⟨h1, he⟩
    · -- transition of c to zero
      have hclt : c < d.length := getD_pos_lt d c h1
      set d2 := d.set c (d.getD c 0 - 1) with hd2
      have hacc := foldl_decStep_acc t d2 ([] ++ [c])
      have hfd : foldDec (c :: t) d =
          ((foldDec t d2).1, c :: (foldDec t d2).2) := by
        rw [hunf, he]
        refine Prod.ext hacc.1 ?_
        rw [hacc.2]
        simp [foldDec]
      obtain ⟨il, imono, izero, imem, ind⟩ := ih d2
      have hd2c : d2.getD c 0 = 0 := by
        rw [hd2, getD_set_self_nat d c _ hclt]
        omega
      have hd2ne : ∀ i, i ≠ c → d2.getD i 0 = d.getD i 0 := fun i hi =>
        getD_set_ne_nat d c i _ (fun hcc => hi hcc.symm)
      rw [hfd]
      refine ⟨?_, ?_, ?_, ?_, ?_⟩
      · simp only []
        rw [il, hd2, List.length_set]
      · intro i
        simp only []
        by_cases hic : i = c
        · subst hic
          have := izero i hd2c
          omega
        · have := imono i
          rw [hd2ne i hic] at this
          exact this
      · intro i hz
        simp only []
        by_cases hic : i = c
        · subst hic
          omega
        · exact izero i (by rw [hd2ne i hic]; exact hz)
      · intro i
        simp only [List.mem_cons]
        constructor
        · rintro (rfl | hm)
          · exact ⟨h1, izero i hd2c⟩
          · obtain ⟨hm1, hm2⟩ := (imem i).mp hm
            by_cases hic : i = c
            · subst hic
              exact ⟨h1, hm2⟩
            · rw [hd2ne i hic] at hm1
              exact ⟨hm1, hm2⟩
        · rintro ⟨hp, hz⟩
          by_cases hic : i = c
          · exact Or.inl hic
          · right
            apply (imem i).mpr
            rw [hd2ne i hic]
            exact ⟨hp, hz⟩
      · simp only []
        apply List.nodup_cons.mpr
        refine ⟨?_, ind⟩
        intro hc
        obtain ⟨hm1, -⟩ := (imem c).mp hc
        omega
    · -- decrement of c without transition
      have hclt : c < d.length := getD_pos_lt d c h1
      set d2 := d.set c (d.getD c 0 - 1) with hd2
      have hfd : foldDec (c :: t) d = foldDec t d2 := by
        rw [hunf, he]
        rfl
      obtain ⟨il, imono, izero, imem, ind⟩ := ih d2
      have hd2c : d2.getD c 0 = d.getD c 0 - 1 := by
        rw [hd2, getD_set_self_nat d c _ hclt]
      have hd2ne : ∀ i, i ≠ c → d2.getD i 0 = d.getD i 0 := fun i hi =>
        getD_set_ne_nat d c i _ (fun hcc => hi hcc.symm)
      rw [hfd]
      refine ⟨?_, ?_, ?_, ?_, ind⟩
      · rw [il, hd2, List.length_set]
      · intro i
        by_cases hic : i = c
        · subst hic
          have := imono i
          omega
        · have := imono i
          rw [hd2ne i hic] at this
          exact this
      · intro i hz
        by_cases hic : i = c
        · subst hic
          omega
        · exact izero i (by rw [hd2ne i hic]; exact hz)
      · intro i
        rw [imem i]
        by_cases hic : i = c
        · subst hic
          rw [hd2c]
          constructor
          · rintro ⟨hp, hz⟩
            exact ⟨h1, hz⟩
          · rintro ⟨hp, hz⟩
            exact ⟨by omega, hz⟩
        · rw [hd2ne i hic]
    · -- consumer already at zero
      have hfd : foldDec (c :: t) d = foldDec t d := by
        rw [hunf, he]
        rfl
      rw [hfd]
      exact ih d

theorem foldDec_counts :
    ∀ (l : List Nat) (d : List Nat),
      (∀ i, l.count i ≤ d.getD i 0) →
      ∀ i, (foldDec l d).1.getD i 0 = d.getD i 0 - l.count i := by
  intro l
  induction l with
  | nil =>
    intro d _ i
    simp [foldDec, List.count]
  | cons c t ih =>
    intro d hcnt i
    have hcc : 0 < d.getD c 0 := by
      have hh := hcnt c
      rw [count_cons_self_nat] at hh
      omega
    have hclt : c < d.length := getD_pos_lt d c hcc
    have hunf : foldDec (c :: t) d = t.foldl decStep (decStep (d, []) c) := rfl
    set d2 := d.set c (d.getD c 0 - 1) with hd2
    have hd2c : d2.getD c 0 = d.getD c 0 - 1 := by
      rw [hd2, getD_set_self_nat d c _ hclt]
    have hd2ne : ∀ j, j ≠ c → d2.getD j 0 = d.getD j 0 := fun j hj =>
      getD_set_ne_nat d c j _ (fun hcc2 => hj hcc2.symm)
    have hcnt2 : ∀ j, t.count j ≤ d2.getD j 0 := by
      intro j
      by_cases hjc : j = c
      · subst hjc
        have hh := hcnt j
        rw [count_cons_self_nat] at hh
        omega
      · have hh := hcnt j
        rw [count_cons_ne_nat c j t hjc] at hh
        rw [hd2ne j hjc]
        exact hh
    have hfst : (foldDec (c :: t) d).1 = (foldDec t d2).1 := by
      rcases decStep_shape d [] c with ⟨h1, h2, he⟩ | ⟨h1, h2, he⟩ | ⟨h1, he⟩
      · rw [hunf, he]
        exact (foldl_decStep_acc t d2 ([] ++ [c])).1
      · rw [hunf, he]
        rfl
      · omega
    rw [hfst, ih d2 hcnt2 i]
    by_cases hic : i = c
    · subst hic
      rw [hd2c, count_cons_self_nat]
      omega
    · rw [hd2ne i hic, count_cons_ne_nat c i t hic]

theorem relax_eq_foldDec (ops : List OperationInfo) (idx : Nat)
    (indeg : List Nat) :
    relax ops idx indeg = foldDec (flatCons ops idx) indeg := by
  unfold relax flatCons foldDec
  generalize (ops.getD idx default).outputs = outs
  suffices h : ∀ (outs : List String) (st : List Nat × List Nat),
      outs.foldl
        (fun st out => if out.isEmpty then st
          else (consumersOf ops out).foldl decStep st) st =
      ((outs.filter (fun o => ¬ o.isEmpty)).flatMap (consumersOf ops)).foldl
        decStep st by
    exact h outs (indeg, [])
  intro outs2
  induction outs2 with
  | nil => intro st; rfl
  | cons o rest ih =>
    intro st
    rw [List.foldl_cons]
    by_cases ho : o.isEmpty
    · rw [if_pos ho]
      have hfo : (o :: rest).filter (fun o => ¬ o.isEmpty) =
          rest.filter (fun o => ¬ o.isEmpty) := by
        rw [List.filter_cons]
        simp [ho]
      rw [hfo]
      exact ih st
    · rw [if_neg ho]
      have hfo : (o :: rest).filter (fun o => ¬ o.isEmpty) =
          o :: rest.filter (fun o => ¬ o.isEmpty) := by
        rw [List.filter_cons]
        simp [ho]
      rw [hfo]
      have hfm : (o :: rest.filter (fun o => ¬ o.isEmpty)).flatMap
          (consumersOf ops) =
          consumersOf ops o ++
            (rest.filter (fun o => ¬ o.isEmpty)).flatMap (consumersOf ops) := by
        simp [List.flatMap]
      rw [hfm, List.foldl_append]
      exact ih _

theorem flatCons_mem_lt (ops : List OperationInfo) (idx j : Nat)
    (h : j ∈ flatCons ops idx) : j < ops.length := by
  unfold flatCons at h
  rcases List.mem_flatMap.mp h with ⟨t, -, hj⟩
  exact consumersOf_mem_lt ops t j hj

theorem outputsF_nodup (ops : List OperationInfo) (hu : uniqueOutputs ops)
    (h : Nat) (hh : h < ops.length) :
    ((ops.getD h default).outputs.filter (fun o => ¬ o.isEmpty)).Nodup := by
  unfold uniqueOutputs at hu
  rw [List.nodup_flatten] at hu
  apply hu.1
  apply List.mem_map.mpr
  refine ⟨ops.getD h default, ?_, rfl⟩
  rw [List.getD_eq_getElem?_getD, List.getElem?_eq_getElem hh]
  exact List.getElem_mem _

theorem flatCons_count (ops : List OperationInfo) (hu : uniqueOutputs ops)
    (h : Nat) (hh : h < ops.length) (i : Nat) :
    List.count i (flatCons ops h) = DPc ops i h := by
  unfold flatCons DPc
  rw [List.count_flatMap]
  have hmapc :
      (((ops.getD h default).outputs.filter (fun o => ¬ o.isEmpty)).map
        (List.count i ∘ consumersOf ops)) =
      (((ops.getD h default).outputs.filter (fun o => ¬ o.isEmpty)).map
        (fun t => (ops.getD i default).inputs.count t)) := by
    apply List.map_congr_left
    intro t htm
    obtain ⟨-, hne⟩ := List.mem_filter.mp htm
    exact consumersOf_count ops i t (by simpa using hne)
  rw [hmapc, sum_count_eq_countP _ _ (outputsF_nodup ops hu h hh)]
  apply List.countP_congr
  intro s _
  constructor
  · intro hc
    have hsm : s ∈ (ops.getD h default).outputs.filter (fun o => ¬ o.isEmpty) := by
      simpa using hc
    obtain ⟨hso, hsne⟩ := List.mem_filter.mp hsm
    have hps : prodIdx ops s = some h :=
      (prodIdx_eq_iff ops hu s h).mpr ⟨by simpa using hsne, hh, hso⟩
    have hf : s.isEmpty = false := by simpa using hsne
    simp [hps, hf]
  · intro hc
    rcases Bool.and_eq_true _ _ |>.mp hc with ⟨h1, h2⟩
    cases hps : prodIdx ops s with
    | none => rw [hps] at h2; simp at h2
    | some p =>
      rw [hps] at h2
      have hph : p = h := by simpa using h2
      subst hph
      obtain ⟨hne, -, hmem⟩ := prodIdx_some_elim ops s p hps
      have : s ∈ (ops.getD p default).outputs.filter (fun o => ¬ o.isEmpty) :=
        List.mem_filter.mpr ⟨hmem, by simpa using hne⟩
      simpa using this

theorem nodup_bound_length (l : List Nat) (n : Nat) (hnd : l.Nodup)
    (hb : ∀ i ∈ l, i < n) : l.length ≤ n := by
  have hsub : l ⊆ List.range n := by
    intro a ha
    exact List.mem_range.mpr (hb a ha)
  have := (hnd.subperm hsub).length_le
  simpa using this

theorem getD_append_lt (A B : List Nat) (k : Nat) (hk : k < A.length) :
    (A ++ B).getD k 0 = A.getD k 0 := by
  rw [List.getD_eq_getElem?_getD, List.getD_eq_getElem?_getD,
    List.getElem?_append_left hk]

theorem getD_append_length (A B : List Nat) (a : Nat) :
    (A ++ a :: B).getD A.length 0 = a := by
  rw [List.getD_eq_getElem?_getD, List.getElem?_append_right (le_refl _)]
  simp

theorem list_exists_min (S : List Nat) (f : Nat → Nat) (h : S ≠ []) :
    ∃ m ∈ S, ∀ x ∈ S, f m ≤ f x := by
  induction S with
  | nil => cases h rfl
  | cons a t ih =>
    cases t with
    | nil =>
      refine ⟨a, List.mem_cons_self _ _, ?_⟩
      intro x hx
      rcases List.mem_cons.mp hx with rfl | hx2
      · exact le_refl _
      · cases hx2
    | cons b u =>
      obtain ⟨m, hm, hmin⟩ := ih (by simp)
      by_cases hfa : f a ≤ f m
      · refine ⟨a, List.mem_cons_self _ _, ?_⟩
        intro x hx
        rcases List.mem_cons.mp hx with rfl | hx2
        · exact le_refl _
        · exact le_trans hfa (hmin x hx2)
      · refine ⟨m, List.mem_cons_of_mem _ hm, ?_⟩
        intro x hx
        rcases List.mem_cons.mp hx with rfl | hx2
        · omega
        · exact hmin x hx2

theorem mem_of_getD_mem (l : List Nat) (p : Nat) (hp : p ∈ l) :
    ∃ k, k < l.length ∧ l.getD k 0 = p := by
  obtain ⟨k, hk, hget⟩ := List.getElem_of_mem hp
  refine ⟨k, hk, ?_⟩
  rw [List.getD_eq_getElem?_getD, List.getElem?_eq_getElem hk]
  rw [hget]
  rfl

theorem kahn_master (ops : List OperationInfo)
    (policy : List Nat → List Nat → List Nat) (hu : uniqueOutputs ops)
    (hperm : ∀ rest nr, (policy rest nr).Perm (rest ++ nr)) :
    ∀ (fuel : Nat) (queue indeg ordered : List Nat)
      (rounds : List (List Nat)) (r : List Nat × List (List Nat)),
      indeg.length = ops.length →
      (∀ i ∈ queue, i < ops.length) →
      (∀ i ∈ ordered, i < ops.length) →
      (queue ++ ordered).Nodup →
      (∀ i, i < ops.length → indeg.getD i 0 = Dcount ops i ordered) →
      (∀ i, i < ops.length → (indeg.getD i 0 = 0 ↔ (i ∈ queue ∨ i ∈ ordered))) →
      ops.length - ordered.length < fuel →
      kahnLoop ops policy fuel queue indeg ordered rounds = r →
      (∃ ext, r.1 = ordered ++ ext) ∧
      r.1.Nodup ∧ (∀ i ∈ r.1, i < ops.length) ∧
      (∀ i, i < ops.length → i ∉ r.1 → 0 < Dcount ops i r.1) ∧
      (∀ j, ordered.length ≤ j → j < r.1.length →
        ∀ t p, ¬ t.isEmpty → t ∈ (ops.getD (r.1.getD j 0) default).inputs →
          prodIdx ops t = some p → ∃ k, k < j ∧ r.1.getD k 0 = p) := by
  intro fuel
  induction fuel with
  | zero =>
    intro queue indeg ordered rounds r _ _ _ _ _ _ hfuel _
    omega
  | succ fuel ih =>
    intro queue indeg ordered rounds r hlen hqb hob hnd hI1 hI4 hfuel hr
    cases queue with
    | nil =>
      have hre : r = (ordered, rounds) := by
        rw [← hr]
        rfl
      rw [hre]
      refine ⟨⟨[], by simp⟩, ?_, hob, ?_, ?_⟩
      · simpa using hnd
      · intro i hi hni
        have hni2 : i ∉ ordered := hni
        have h4 := (hI4 i hi)
        have hne : indeg.getD i 0 ≠ 0 := by
          intro h0
          rcases h4.mp h0 with hq | ho
          · cases hq
          · exact hni2 ho
        rw [hI1 i hi] at hne
        show 0 < Dcount ops i ordered
        omega
      · intro j hj1 hj2
        have hj2b : j < ordered.length := hj2
        omega
    | cons idx rest =>
      have hidxn : idx < ops.length := hqb idx (List.mem_cons_self _ _)
      have hndc : idx ∉ (rest ++ ordered) ∧ (rest ++ ordered).Nodup := by
        have : ((idx :: rest) ++ ordered).Nodup = (idx :: (rest ++ ordered)).Nodup := by
          rw [List.cons_append]
        rw [this] at hnd
        exact List.nodup_cons.mp hnd
      have hidx_not_rest : idx ∉ rest := fun hm =>
        hndc.1 (List.mem_append.mpr (Or.inl hm))
      have hidx_not_ord : idx ∉ ordered := fun hm =>
        hndc.1 (List.mem_append.mpr (Or.inr hm))
      have hro_nd : (rest ++ ordered).Nodup := hndc.2
      have hidx0 : indeg.getD idx 0 = 0 :=
        (hI4 idx hidxn).mpr (Or.inl (List.mem_cons_self _ _))
      have hDidx : Dcount ops idx ordered = 0 := by
        rw [← hI1 idx hidxn]
        exact hidx0
      -- relax characterisation
      have hcnt : ∀ i, (flatCons ops idx).count i ≤ indeg.getD i 0 := by
        intro i
        by_cases hi : i < ops.length
        · rw [flatCons_count ops hu idx hidxn i, hI1 i hi]
          exact DPc_le_Dcount ops i idx ordered hidx_not_ord
        · have hnm : i ∉ flatCons ops idx := fun hm =>
            hi (flatCons_mem_lt _ _ _ hm)
          rw [List.count_eq_zero.mpr hnm]
          omega
      obtain ⟨flen, fmono, fzero, fmem, fnodup⟩ :=
        foldDec_props (flatCons ops idx) indeg
      have fcounts := foldDec_counts (flatCons ops idx) indeg hcnt
      set d2 := (foldDec (flatCons ops idx) indeg).1 with hd2def
      set nr := (foldDec (flatCons ops idx) indeg).2 with hnrdef
      have hrelax : relax ops idx indeg = (d2, nr) := by
        rw [relax_eq_foldDec]
      have hlen2 : d2.length = ops.length := by rw [flen, hlen]
      have hd2 : ∀ i, i < ops.length →
          d2.getD i 0 = Dcount ops i (ordered ++ [idx]) := by
        intro i hi
        have hpop := Dcount_pop ops i idx ordered hidx_not_ord
        have hc := fcounts i
        rw [flatCons_count ops hu idx hidxn i, hI1 i hi] at hc
        omega
      have hnrlt : ∀ i ∈ nr, i < ops.length := by
        intro i hm
        obtain ⟨hp, -⟩ := (fmem i).mp hm
        have := getD_pos_lt indeg i hp
        omega
      have hnr_fresh : ∀ i ∈ nr, i ∉ (idx :: rest) ∧ i ∉ ordered := by
        intro i hm
        obtain ⟨hp, -⟩ := (fmem i).mp hm
        have hi : i < ops.length := hnrlt i hm
        have hne : indeg.getD i 0 ≠ 0 := by omega
        constructor
        · intro hq
          exact hne ((hI4 i hi).mpr (Or.inl hq))
        · intro ho
          exact hne ((hI4 i hi).mpr (Or.inr ho))
      have hq2perm : (policy rest nr).Perm (rest ++ nr) := hperm rest nr
      have hqb2 : ∀ i ∈ policy rest nr, i < ops.length := by
        intro i hm
        rcases List.mem_append.mp (hq2perm.mem_iff.mp hm) with hm2 | hm2
        · exact hqb i (List.mem_cons_of_mem _ hm2)
        · exact hnrlt i hm2
      have hob2 : ∀ i ∈ ordered ++ [idx], i < ops.length := by
        intro i hm
        rcases List.mem_append.mp hm with hm2 | hm2
        · exact hob i hm2
        · rw [List.mem_singleton.mp hm2]
          exact hidxn
      have hnd2 : (policy rest nr ++ (ordered ++ [idx])).Nodup := by
        have hperm2 : (policy rest nr ++ (ordered ++ [idx])).Perm
            ((rest ++ nr) ++ (ordered ++ [idx])) :=
          hq2perm.append_right _
        apply List.Nodup.perm _ hperm2.symm
        rw [List.nodup_append]
        refine ⟨?_, ?_, ?_⟩
        · rw [List.nodup_append]
          refine ⟨?_, fnodup, ?_⟩
          · exact (List.nodup_append.mp hro_nd).1
          · intro a ha hanr
            have h0 : indeg.getD a 0 = 0 :=
              (hI4 a (hqb a (List.mem_cons_of_mem _ ha))).mpr
                (Or.inl (List.mem_cons_of_mem _ ha))
            obtain ⟨hp, -⟩ := (fmem a).mp hanr
            omega
        · rw [List.nodup_append]
          refine ⟨(List.nodup_append.mp hro_nd).2.1, List.nodup_singleton _, ?_⟩
          intro a ha hax
          rw [List.mem_singleton.mp hax] at ha
          exact hidx_not_ord ha
        · intro a ha hb
          rcases List.mem_append.mp ha with ha2 | ha2
          · rcases List.mem_append.mp hb with hb2 | hb2
            · exact (List.nodup_append.mp hro_nd).2.2 ha2 hb2
            · rw [List.mem_singleton.mp hb2] at ha2
              exact hidx_not_rest ha2
          · rcases List.mem_append.mp hb with hb2 | hb2
            · exact (hnr_fresh a ha2).2 hb2
            · rw [List.mem_singleton.mp hb2] at ha2
              exact (hnr_fresh idx ha2).1 (List.mem_cons_self _ _)
      have hI4b : ∀ i, i < ops.length →
          (d2.getD i 0 = 0 ↔ (i ∈ policy rest nr ∨ i ∈ ordered ++ [idx])) := by
        intro i hi
        constructor
        · intro h0
          by_cases hz : indeg.getD i 0 = 0
          · rcases (hI4 i hi).mp hz with hq | ho
            · rcases List.mem_cons.mp hq with rfl | hq2
              · exact Or.inr (List.mem_append.mpr (Or.inr (List.mem_singleton.mpr rfl)))
              · exact Or.inl (hq2perm.mem_iff.mpr (List.mem_append.mpr (Or.inl hq2)))
            · exact Or.inr (List.mem_append.mpr (Or.inl ho))
          · have : i ∈ nr := (fmem i).mpr ⟨by omega, h0⟩
            exact Or.inl (hq2perm.mem_iff.mpr (List.mem_append.mpr (Or.inr this)))
        · intro hm
          rcases hm with hm | hm
          · rcases List.mem_append.mp (hq2perm.mem_iff.mp hm) with hm2 | hm2
            · exact fzero i ((hI4 i hi).mpr (Or.inl (List.mem_cons_of_mem _ hm2)))
            · exact ((fmem i).mp hm2).2
          · rcases List.mem_append.mp hm with hm2 | hm2
            · exact fzero i ((hI4 i hi).mpr (Or.inr hm2))
            · rw [List.mem_singleton.mp hm2]
              exact fzero idx hidx0
      have hordb : (ordered ++ [idx]).length ≤ ops.length := by
        apply nodup_bound_length _ _ _ hob2
        exact (List.nodup_append.mp hnd2).2.1
      have hfuel2 : ops.length - (ordered ++ [idx]).length < fuel := by
        rw [List.length_append, List.length_singleton]
        rw [List.length_append, List.length_singleton] at hordb
        omega
      have hstep : kahnLoop ops policy (fuel + 1) (idx :: rest) indeg ordered
          rounds =
          kahnLoop ops policy fuel (policy rest (relax ops idx indeg).2)
            (relax ops idx indeg).1 (ordered ++ [idx])
            (rounds ++ [(relax ops idx indeg).2]) := rfl
      have hr2 : kahnLoop ops policy fuel (policy rest nr) d2 (ordered ++ [idx])
          (rounds ++ [nr]) = r := by
        rw [← hr, hstep, hrelax]
      obtain ⟨⟨ext, hext⟩, hnd3, hbound3, hmiss3, hpos3⟩ :=
        ih (policy rest nr) d2 (ordered ++ [idx]) (rounds ++ [nr]) r
          hlen2 hqb2 hob2 hnd2 hd2 hI4b hfuel2 hr2
      refine ⟨⟨[idx] ++ ext, by rw [hext, List.append_assoc]⟩, hnd3, hbound3,
        hmiss3, ?_⟩
      intro j hj1 hj2 t p ht htin hpt
      by_cases hjeq : j = ordered.length
      · subst hjeq
        have hrget : r.1.getD ordered.length 0 = idx := by
          rw [hext]
          have : ordered ++ [idx] ++ ext = ordered ++ (idx :: ext) := by
            rw [List.append_assoc]
            rfl
          rw [this, getD_append_length]
        rw [hrget] at htin
        have hp_ord : p ∈ ordered := by
          have hcz : (ops.getD idx default).inputs.countP
              (fun t => ¬ t.isEmpty &&
                (match prodIdx ops t with
                 | some p => ¬ ordered.contains p
                 | none => false)) = 0 := hDidx
          have hnp := List.countP_eq_zero.mp hcz t htin
          rw [hpt] at hnp
          simp [ht] at hnp
          exact hnp
        obtain ⟨k, hk, hkget⟩ := mem_of_getD_mem ordered p hp_ord
        refine ⟨k, hk, ?_⟩
        rw [hext]
        have : ordered ++ [idx] ++ ext = ordered ++ ([idx] ++ ext) := by
          rw [List.append_assoc]
        rw [this, getD_append_lt _ _ _ hk]
        exact hkget
      · have hj1b : (ordered ++ [idx]).length ≤ j := by
          rw [List.length_append, List.length_singleton]
          omega
        exact hpos3 j hj1b hj2 t p ht htin hpt

theorem kahn_run_props (ops : List OperationInfo)
    (policy : List Nat → List Nat → List Nat) (hu : uniqueOutputs ops)
    (hperm : ∀ rest nr, (policy rest nr).Perm (rest ++ nr))
    (queue0 : List Nat) (r : List Nat × List (List Nat))
    (hq0 : queue0.Perm ((List.range ops.length).filter
      (fun i => (indegreeOf ops).getD i 0 = 0)))
    (hr : kahnLoop ops policy (ops.length + 1) queue0 (indegreeOf ops) [] [] = r) :
    r.1.Nodup ∧ (∀ i ∈ r.1, i < ops.length) ∧
    (∀ i, i < ops.length → i ∉ r.1 → 0 < Dcount ops i r.1) ∧
    (∀ j, j < r.1.length →
      ∀ t p, ¬ t.isEmpty → t ∈ (ops.getD (r.1.getD j 0) default).inputs →
        prodIdx ops t = some p → ∃ k, k < j ∧ r.1.getD k 0 = p) := by
  have hready_nd : ((List.range ops.length).filter
      (fun i => (indegreeOf ops).getD i 0 = 0)).Nodup :=
    List.Nodup.filter _ (List.nodup_range ops.length)
  have hqmem : ∀ i, i ∈ queue0 ↔
      (i < ops.length ∧ (indegreeOf ops).getD i 0 = 0) := by
    intro i
    rw [hq0.mem_iff, List.mem_filter, List.mem_range]
    simp
  have hmaster := kahn_master ops policy hu hperm (ops.length + 1) queue0
    (indegreeOf ops) [] [] r (indegreeOf_length ops)
    (fun i hi => ((hqmem i).mp hi).1)
    (fun i hi => by cases hi)
    (by
      simp only [List.append_nil]
      exact List.Nodup.perm hready_nd hq0.symm)
    (fun i hi => indegreeOf_getD ops i hi)
    (fun i hi => by
      constructor
      · intro h0
        exact Or.inl ((hqmem i).mpr ⟨hi, h0⟩)
      · rintro (hq | ho)
        · exact ((hqmem i).mp hq).2
        · cases ho)
    (by omega) hr
  obtain ⟨-, hnd, hb, hmiss, hpos⟩ := hmaster
  exact ⟨hnd, hb, hmiss, fun j hj => hpos j (by simp) hj⟩

theorem kahn_run_complete (ops : List OperationInfo)
    (policy : List Nat → List Nat → List Nat) (hu : uniqueOutputs ops)
    (hperm : ∀ rest nr, (policy rest nr).Perm (rest ++ nr))
    (queue0 : List Nat) (r : List Nat × List (List Nat))
    (hq0 : queue0.Perm ((List.range ops.length).filter
      (fun i => (indegreeOf ops).getD i 0 = 0)))
    (hr : kahnLoop ops policy (ops.length + 1) queue0 (indegreeOf ops) [] [] = r)
    (hacyc : Acyclic ops) :
    r.1.length = ops.length := by
  obtain ⟨hnd, hb, hmiss, -⟩ := kahn_run_props ops policy hu hperm queue0 r hq0 hr
  have hall : ∀ i, i < ops.length → i ∈ r.1 := by
    by_contra hc
    push_neg at hc
    obtain ⟨i0, hi0, hni0⟩ := hc
    obtain ⟨rank, hrank⟩ := hacyc
    set S := (List.range ops.length).filter (fun i => decide (i ∉ r.1)) with hS
    have hi0S : i0 ∈ S := by
      rw [hS, List.mem_filter, List.mem_range]
      exact ⟨hi0, by simpa using hni0⟩
    obtain ⟨m, hmS, hmin⟩ := list_exists_min S rank (by
      intro hSnil
      rw [hSnil] at hi0S
      cases hi0S)
    obtain ⟨hmlt, hmnot⟩ : m < ops.length ∧ m ∉ r.1 := by
      rw [hS, List.mem_filter, List.mem_range] at hmS
      exact ⟨hmS.1, by simpa using hmS.2⟩
    have hD := hmiss m hmlt hmnot
    rw [Dcount] at hD
    obtain ⟨t, htin, htp⟩ := List.countP_pos.mp hD
    rcases Bool.and_eq_true _ _ |>.mp htp with ⟨ht1, ht2⟩
    cases hps : prodIdx ops t with
    | none => rw [hps] at ht2; simp at ht2
    | some p =>
      rw [hps] at ht2
      have hpnot : p ∉ r.1 := by simpa using ht2
      obtain ⟨htne, hplt, htout⟩ := prodIdx_some_elim ops t p hps
      have hpS : p ∈ S := by
        rw [hS, List.mem_filter, List.mem_range]
        exact ⟨hplt, by simpa using hpnot⟩
      have hedge : edgeb ops p m = true := by
        rw [edgeb, List.any_eq_true]
        refine ⟨t, htout, ?_⟩
        have hcont : (ops.getD m default).inputs.contains t = true := by
          simpa using htin
        simp only [hcont, Bool.and_true]
        simpa using htne
      have := hrank p m hedge
      have := hmin p hpS
      omega
  have hge : ops.length ≤ r.1.length := by
    have hsub : List.range ops.length ⊆ r.1 := by
      intro a ha
      exact hall a (List.mem_range.mp ha)
    have := (((List.nodup_range ops.length)).subperm hsub).length_le
    simpa using this
  have hle : r.1.length ≤ ops.length := nodup_bound_length r.1 ops.length hnd hb
  omega

theorem foldl_pushback : ∀ (l q : List Nat),
    l.foldl (fun q i => q ++ [i]) q = q ++ l := by
  intro l
  induction l with
  | nil => intro q; simp
  | cons a t ih =>
    intro q
    rw [List.foldl_cons, ih]
    simp

theorem foldl_pushfront_true (c : Nat → Bool) : ∀ (l q : List Nat),
    (∀ x ∈ l, c x = true) →
    l.foldl (fun q cidx => if c cidx then cidx :: q else q ++ [cidx]) q =
      l.reverse ++ q := by
  intro l
  induction l with
  | nil => intro q _; simp
  | cons a t ih =>
    intro q hall
    rw [List.foldl_cons, if_pos (hall a (List.mem_cons_self _ _)),
      ih (a :: q) (fun x hx => hall x (List.mem_cons_of_mem _ hx))]
    simp

theorem foldl_pushback_false (c : Nat → Bool) : ∀ (l q : List Nat),
    (∀ x ∈ l, c x = false) →
    l.foldl (fun q cidx => if c cidx then cidx :: q else q ++ [cidx]) q =
      q ++ l := by
  intro l
  induction l with
  | nil => intro q _; simp
  | cons a t ih =>
    intro q hall
    have hfa : c a = false := hall a (List.mem_cons_self _ _)
    rw [List.foldl_cons, if_neg (by simp [hfa]),
      ih (q ++ [a]) (fun x hx => hall x (List.mem_cons_of_mem _ hx))]
    simp

theorem execPush_eq (c : Nat → Bool) (rest nr : List Nat) :
    execPush c rest nr =
      (nr.filter c).reverse ++ rest ++ nr.filter (fun i => !(c i)) := by
  unfold execPush execSort
  rw [List.foldl_append,
    foldl_pushfront_true c (nr.filter c) rest
      (fun x hx => (List.mem_filter.mp hx).2),
    foldl_pushback_false c (nr.filter (fun i => !(c i)))
      ((nr.filter c).reverse ++ rest)
      (fun x hx => by
        have := (List.mem_filter.mp hx).2
        simpa using this)]

theorem execPush_perm (c : Nat → Bool) (rest nr : List Nat) :
    (execPush c rest nr).Perm (rest ++ nr) := by
  rw [execPush_eq]
  have h1 : ((nr.filter c).reverse ++ rest ++ nr.filter (fun i => !(c i))).Perm
      (nr.filter c ++ rest ++ nr.filter (fun i => !(c i))) :=
    List.Perm.append_right _ (List.Perm.append_right _ (List.reverse_perm _))
  have h2 : (nr.filter c ++ rest ++ nr.filter (fun i => !(c i))).Perm
      (rest ++ (nr.filter c ++ nr.filter (fun i => !(c i)))) := by
    rw [List.append_assoc]
    exact List.perm_append_comm_assoc _ _ _
  have h3 : (rest ++ (nr.filter c ++ nr.filter (fun i => !(c i)))).Perm
      (rest ++ nr) :=
    List.Perm.append_left _ (List.filter_append_perm c nr)
  exact (h1.trans h2).trans h3

theorem edgeb_bounds (ops : List OperationInfo) (j i : Nat)
    (h : edgeb ops j i = true) : j < ops.length ∧ i < ops.length := by
  rw [edgeb, List.any_eq_true] at h
  obtain ⟨t, htmem, htp⟩ := h
  rcases Bool.and_eq_true _ _ |>.mp htp with ⟨-, htcont⟩
  constructor
  · by_contra hj
    rw [List.getD_eq_default _ _ (by omega)] at htmem
    cases htmem
  · by_contra hi
    rw [List.getD_eq_default _ _ (by omega)] at htcont
    have hd : (default : OperationInfo).inputs = [] := rfl
    rw [hd] at htcont
    simp at htcont

theorem idxOf_getD (l : List Nat) (x : Nat) (h : x ∈ l) :
    l.indexOf x < l.length ∧ l.getD (l.indexOf x) 0 = x := by
  induction l with
  | nil => cases h
  | cons a t ih =>
    rw [List.indexOf_cons]
    by_cases hax : a == x
    · rw [hax]
      constructor
      · simp
      · have : a = x := eq_of_beq hax
        simp [this]
    · have hax2 : (a == x) = false := by rwa [Bool.not_eq_true] at hax
      rw [hax2]
      have hxt : x ∈ t := by
        rcases List.mem_cons.mp h with rfl | hm
        · simp at hax
        · exact hm
      obtain ⟨ih1, ih2⟩ := ih hxt
      constructor
      · simp only [List.length_cons, Bool.cond_false]
        omega
      · simp only [Bool.cond_false]
        simpa using ih2

theorem idxOf_le (l : List Nat) (x : Nat) :
    ∀ k, k < l.length → l.getD k 0 = x → l.indexOf x ≤ k := by
  induction l with
  | nil => intro k hk; simp at hk
  | cons a t ih =>
    intro k hk hg
    rw [List.indexOf_cons]
    cases k with
    | zero =>
      rw [List.getD_cons_zero] at hg
      subst hg
      simp
    | succ m =>
      by_cases hax : a == x
      · rw [hax]
        simp
      · have hax2 : (a == x) = false := by rwa [Bool.not_eq_true] at hax
        rw [hax2]
        rw [List.getD_cons_succ] at hg
        have := ih m (by simpa using hk) hg
        simp only [Bool.cond_false]
        omega

theorem chain_rank (ops : List OperationInfo) (rank : Nat → Nat)
    (hrank : ∀ j i, edgeb ops j i = true → rank j < rank i) :
    ∀ (m : List Nat) (a b : Nat),
      List.Chain (fun x y => edgeb ops x y = true) a m →
      m.getLast? = some b → rank a < rank b := by
  intro m
  induction m with
  | nil =>
    intro a b _ hlast
    simp at hlast
  | cons c t ih =>
    intro a b hchain hlast
    rcases List.chain_cons.mp hchain with ⟨hedge, hrest⟩
    cases t with
    | nil =>
      simp at hlast
      rw [← hlast]
      exact hrank a c hedge
    | cons d u =>
      have hlast2 : (d :: u).getLast? = some b := by
        rw [List.getLast?_cons_cons] at hlast
        exact hlast
      exact lt_trans (hrank a c hedge) (ih c b hrest hlast2)

theorem complete_mem (l : List Nat) (n : Nat) (hnd : l.Nodup)
    (hb : ∀ i ∈ l, i < n) (hlen : l.length = n) :
    ∀ i, i < n → i ∈ l := by
  have hsub : l ⊆ List.range n := fun a ha => List.mem_range.mpr (hb a ha)
  have hsp := hnd.subperm hsub
  have hperm := hsp.perm_of_length_le (by simp [hlen])
  intro i hi
  exact hperm.mem_iff.mpr (List.mem_range.mpr hi)

theorem run_gives_rank (ops : List OperationInfo) (hu : uniqueOutputs ops)
    (res : List Nat) (hnd : res.Nodup) (hb : ∀ i ∈ res, i < ops.length)
    (hlen : res.length = ops.length)
    (hpos : ∀ j, j < res.length →
      ∀ t p, ¬ t.isEmpty → t ∈ (ops.getD (res.getD j 0) default).inputs →
        prodIdx ops t = some p → ∃ k, k < j ∧ res.getD k 0 = p) :
    ∀ j i, edgeb ops j i = true → res.indexOf j < res.indexOf i := by
  intro j i hedge
  obtain ⟨hjlt, hilt⟩ := edgeb_bounds ops j i hedge
  rw [edgeb, List.any_eq_true] at hedge
  obtain ⟨t, htout, htp⟩ := hedge
  rcases Bool.and_eq_true _ _ |>.mp htp with ⟨htne, htcont⟩
  have htin : t ∈ (ops.getD i default).inputs := by simpa using htcont
  have hpt : prodIdx ops t = some j :=
    (prodIdx_eq_iff ops hu t j).mpr ⟨by simpa using htne, hjlt, htout⟩
  have himem : i ∈ res := complete_mem res ops.length hnd hb hlen i hilt
  obtain ⟨hidx_lt, hidx_get⟩ := idxOf_getD res i himem
  obtain ⟨k, hk, hkget⟩ := hpos (res.indexOf i) hidx_lt t j
    (by simpa using htne) (by rw [hidx_get]; exact htin) hpt
  have := idxOf_le res j k (by omega) hkget
  omega

theorem topological_order_eq (ops : List OperationInfo)
    (r : List Nat × List (List Nat))
    (hr : kahnLoop ops (fun rest nr => rest ++ nr) (ops.length + 1)
      ((List.range ops.length).filter (fun i => (indegreeOf ops).getD i 0 = 0))
      (indegreeOf ops) [] [] = r) :
    topological_order ops =
      if r.1.length ≠ ops.length then
        .error (.invalidModel "Graph has cycles or unresolved dependencies")
      else .ok r.1 := by
  simp only [topological_order]
  rw [hr]

theorem execRun_eq (ops : List OperationInfo) (minputs : List String)
    (r : List Nat × List (List Nat))
    (hr : kahnLoop ops (execPush (consumesInput ops minputs)) (ops.length + 1)
      ((execSort (consumesInput ops minputs)
        ((List.range ops.length).filter (fun i => (indegreeOf ops).getD i 0 = 0))).foldl
        (fun q i => q ++ [i]) [])
      (indegreeOf ops) [] [] = r) :
    execRun ops minputs =
      (r.1, ((List.range ops.length).filter
        (fun i => (indegreeOf ops).getD i 0 = 0)) :: r.2) := by
  simp only [execRun]
  rw [hr]

theorem execution_order_eq (ops : List OperationInfo) (minputs : List String)
    (l : List Nat) (rounds : List (List Nat))
    (hr : execRun ops minputs = (l, rounds)) :
    execution_order ops minputs =
      if l.length ≠ ops.length then
        .error (.invalidModel "Graph has cycles or unresolved dependencies")
      else .ok l := by
  simp only [execution_order]
  rw [hr]

theorem execQueue0_perm (ops : List OperationInfo) (minputs : List String) :
    ((execSort (consumesInput ops minputs)
      ((List.range ops.length).filter (fun i => (indegreeOf ops).getD i 0 = 0))).foldl
      (fun q i => q ++ [i]) []).Perm
    ((List.range ops.length).filter (fun i => (indegreeOf ops).getD i 0 = 0)) := by
  rw [foldl_pushback]
  simp only [List.nil_append, execSort]
  exact List.filter_append_perm _ _

theorem complete_run_no_cycle (ops : List OperationInfo) (hu : uniqueOutputs ops)
    (res : List Nat) (hnd : res.Nodup) (hb : ∀ i ∈ res, i < ops.length)
    (hlen : res.length = ops.length)
    (hpos : ∀ j, j < res.length → ∀ t p, ¬ t.isEmpty →
      t ∈ (ops.getD (res.getD j 0) default).inputs →
      prodIdx ops t = some p → ∃ k, k < j ∧ res.getD k 0 = p) :
    ¬ HasCycle ops := by
  intro hcyc
  obtain ⟨a, l, hchain⟩ := hcyc
  have hrank := run_gives_rank ops hu res hnd hb hlen hpos
  have := chain_rank ops (fun x => res.indexOf x) hrank (l ++ [a]) a a hchain
    (List.getLast?_concat l)
  omega

/-- C2 (amended): for a model whose non-empty output names are pairwise
distinct across operations and whose dependency graph is acyclic, both
topological_order and execution_order succeed with a permutation of all
operation indices in which every producer of a non-empty tensor consumed
by an operation appears strictly earlier than that operation.  Without
the uniqueness restriction the claim fails (see the counterexample): a
duplicated producer is ignored by the indegree accounting and can be
emitted after its consumer. -/
theorem orders_topologically_valid (ops : List OperationInfo)
    (minputs : List String) (hu : uniqueOutputs ops) (hacyc : Acyclic ops) :
    ∃ l1 l2, topological_order ops = .ok l1 ∧
      execution_order ops minputs = .ok l2 ∧
      l1.length = ops.length ∧ l2.length = ops.length ∧
      (∀ l, (l = l1 ∨ l = l2) → l.Nodup ∧ (∀ i ∈ l, i < ops.length) ∧
        (∀ j, j < l.length → ∀ k, k < ops.length →
          ∀ t, ¬ t.isEmpty → t ∈ (ops.getD (l.getD j 0) default).inputs →
            t ∈ (ops.getD k default).outputs →
            ∃ k2, k2 < j ∧ l.getD k2 0 = k)) := by
  obtain ⟨r1, hr1⟩ : ∃ r, kahnLoop ops (fun rest nr => rest ++ nr)
      (ops.length + 1)
      ((List.range ops.length).filter (fun i => (indegreeOf ops).getD i 0 = 0))
      (indegreeOf ops) [] [] = r := ⟨_, rfl⟩
  obtain ⟨hnd1, hb1, -, hpos1⟩ := kahn_run_props ops _ hu
    (fun rest nr => List.Perm.refl _) _ r1 (List.Perm.refl _) hr1
  have hlen1 := kahn_run_complete ops _ hu
    (fun rest nr => List.Perm.refl _) _ r1 (List.Perm.refl _) hr1 hacyc
  have heq1 := topological_order_eq ops r1 hr1
  rw [if_neg (by omega)] at heq1
  obtain ⟨r2, hr2⟩ : ∃ r, kahnLoop ops (execPush (consumesInput ops minputs))
      (ops.length + 1)
      ((execSort (consumesInput ops minputs)
        ((List.range ops.length).filter
          (fun i => (indegreeOf ops).getD i 0 = 0))).foldl
        (fun q i => q ++ [i]) [])
      (indegreeOf ops) [] [] = r := ⟨_, rfl⟩
  obtain ⟨hnd2, hb2, -, hpos2⟩ := kahn_run_props ops _ hu
    (execPush_perm _) _ r2 (execQueue0_perm ops minputs) hr2
  have hlen2 := kahn_run_complete ops _ hu
    (execPush_perm _) _ r2 (execQueue0_perm ops minputs) hr2 hacyc
  have heq2 := execution_order_eq ops minputs r2.1 _
    (execRun_eq ops minputs r2 hr2)
  rw [if_neg (by omega)] at heq2
  refine ⟨r1.1, r2.1, heq1, heq2, hlen1, hlen2, ?_⟩
  rintro l (rfl | rfl)
  · refine ⟨hnd1, hb1, ?_⟩
    intro j hj k hk t htne htin htout
    exact hpos1 j hj t k htne htin
      ((prodIdx_eq_iff ops hu t k).mpr ⟨htne, hk, htout⟩)
  · refine ⟨hnd2, hb2, ?_⟩
    intro j hj k hk t htne htin htout
    exact hpos2 j hj t k htne htin
      ((prodIdx_eq_iff ops hu t k).mpr ⟨htne, hk, htout⟩)

/-- C2 counterexample: in the duplicated-producer model exOpsDup the graph
is acyclic, yet both orders emit [0, 3, 2, 1], where operation 2 consumes
the non-empty tensor x also produced by operation 1, and operation 1 is
emitted only after operation 2: the orders are not topologically valid in
the claimed sense. -/
theorem orders_topologically_valid_counterexample :
    Acyclic exOpsDup ∧
    topological_order exOpsDup = .ok [0, 3, 2, 1] ∧
    execution_order exOpsDup [] = .ok [0, 3, 2, 1] ∧
    ¬ ("x" : String).isEmpty ∧
    "x" ∈ (exOpsDup.getD ([0, 3, 2, 1].getD 2 0) default).inputs ∧
    "x" ∈ (exOpsDup.getD 1 default).outputs ∧
    (∀ k2, k2 < 2 → [0, 3, 2, 1].getD k2 0 ≠ 1) := by
  refine ⟨⟨exRankDup, ?_⟩, by decide, by decide, by decide, by decide,
    by decide, by decide⟩
  intro j i he
  have hb := edgeb_bounds exOpsDup j i he
  exact (by decide : ∀ j2, j2 < exOpsDup.length → ∀ i2, i2 < exOpsDup.length →
    edgeb exOpsDup j2 i2 = true → exRankDup j2 < exRankDup i2) j hb.1 i hb.2 he

/-- C2 witness: the two-operation chain exOpsChain has unique producers and
is acyclic, and the claim theorem applies to it. -/
theorem orders_topologically_valid_witness :
    ∃ l1 l2, topological_order exOpsChain = .ok l1 ∧
      execution_order exOpsChain ["in"] = .ok l2 ∧
      l1.length = exOpsChain.length ∧ l2.length = exOpsChain.length ∧
      (∀ l, (l = l1 ∨ l = l2) → l.Nodup ∧ (∀ i ∈ l, i < exOpsChain.length) ∧
        (∀ j, j < l.length → ∀ k, k < exOpsChain.length →
          ∀ t, ¬ t.isEmpty → t ∈ (exOpsChain.getD (l.getD j 0) default).inputs →
            t ∈ (exOpsChain.getD k default).outputs →
            ∃ k2, k2 < j ∧ l.getD k2 0 = k)) :=
  orders_topologically_valid exOpsChain ["in"]
    (by unfold uniqueOutputs; decide)
    ⟨fun k => k, by
      intro j i he
      have hb := edgeb_bounds exOpsChain j i he
      exact (by decide : ∀ j2, j2 < exOpsChain.length →
        ∀ i2, i2 < exOpsChain.length →
        edgeb exOpsChain j2 i2 = true → j2 < i2) j hb.1 i hb.2 he⟩

/-- C5 (amended): for a model whose non-empty output names are pairwise
distinct across operations, the presence of a dependency cycle makes both
topological_order and execution_order return the InvalidModel error whose
message is "Graph has cycles or unresolved dependencies" (capital G, in
contrast to the lowercase message quoted by the claim).  Without the
uniqueness restriction a cyclic model can even succeed (see the
counterexample): a second producer of a tensor on the cycle feeds the
consumers and the loop emits every operation. -/
theorem cycle_detected (ops : List OperationInfo) (minputs : List String)
    (hu : uniqueOutputs ops) (hcyc : HasCycle ops) :
    topological_order ops =
      .error (.invalidModel "Graph has cycles or unresolved dependencies") ∧
    execution_order ops minputs =
      .error (.invalidModel "Graph has cycles or unresolved dependencies") := by
  constructor
  · obtain ⟨r1, hr1⟩ : ∃ r, kahnLoop ops (fun rest nr => rest ++ nr)
        (ops.length + 1)
        ((List.range ops.length).filter
          (fun i => (indegreeOf ops).getD i 0 = 0))
        (indegreeOf ops) [] [] = r := ⟨_, rfl⟩
    obtain ⟨hnd1, hb1, -, hpos1⟩ := kahn_run_props ops _ hu
      (fun rest nr => List.Perm.refl _) _ r1 (List.Perm.refl _) hr1
    have hne : r1.1.length ≠ ops.length := by
      intro hlen
      exact complete_run_no_cycle ops hu r1.1 hnd1 hb1 hlen hpos1 hcyc
    have heq1 := topological_order_eq ops r1 hr1
    rw [if_pos hne] at heq1
    exact heq1
  · obtain ⟨r2, hr2⟩ : ∃ r, kahnLoop ops (execPush (consumesInput ops minputs))
        (ops.length + 1)
        ((execSort (consumesInput ops minputs)
          ((List.range ops.length).filter
            (fun i => (indegreeOf ops).getD i 0 = 0))).foldl
          (fun q i => q ++ [i]) [])
        (indegreeOf ops) [] [] = r := ⟨_, rfl⟩
    obtain ⟨hnd2, hb2, -, hpos2⟩ := kahn_run_props ops _ hu
      (execPush_perm _) _ r2 (execQueue0_perm ops minputs) hr2
    have hne : r2.1.length ≠ ops.length := by
      intro hlen
      exact complete_run_no_cycle ops hu r2.1 hnd2 hb2 hlen hpos2 hcyc
    have heq2 := execution_order_eq ops minputs r2.1 _
      (execRun_eq ops minputs r2 hr2)
    rw [if_pos hne] at heq2
    exact heq2

/-- C5 counterexample: the model exOpsCycDup has a dependency cycle between
operations 0 and 1, yet because operation 2 also produces the tensor y on
the cycle, both orders succeed with [2, 0, 1] instead of reporting the
cycle. -/
theorem cycle_detected_counterexample :
    HasCycle exOpsCycDup ∧
    topological_order exOpsCycDup = .ok [2, 0, 1] ∧
    execution_order exOpsCycDup [] = .ok [2, 0, 1] :=
  ⟨⟨0, [1], List.Chain.cons (by decide)
      (List.Chain.cons (by decide) List.Chain.nil)⟩,
    by decide, by decide⟩

/-- C5 witness: the plain two-operation cycle exOpsTwoCycle has unique
producers, and the claim theorem applies to it. -/
theorem cycle_detected_witness :
    topological_order exOpsTwoCycle =
      .error (.invalidModel "Graph has cycles or unresolved dependencies") ∧
    execution_order exOpsTwoCycle [] =
      .error (.invalidModel "Graph has cycles or unresolved dependencies") :=
  cycle_detected exOpsTwoCycle [] (by unfold uniqueOutputs; decide)
    ⟨0, [1], List.Chain.cons (by decide)
      (List.Chain.cons (by decide) List.Chain.nil)⟩

theorem splitBefore_of_mem_mem (x y z : List Nat) (a b : Nat)
    (ha : a ∈ x) (hb : b ∈ z) : SplitBefore (x ++ y ++ z) a b := by
  obtain ⟨u, v, rfl⟩ := List.append_of_mem ha
  obtain ⟨s, t, rfl⟩ := List.append_of_mem hb
  refine ⟨u, v ++ y ++ s, t, ?_⟩
  simp [List.append_assoc]

theorem splitBefore_append (l s : List Nat) (a b : Nat)
    (h : SplitBefore l a b) : SplitBefore (l ++ s) a b := by
  obtain ⟨u, v, w, rfl⟩ := h
  exact ⟨u, v, w ++ s, by simp⟩

theorem splitBefore_extend (x l z : List Nat) (a b : Nat)
    (h : SplitBefore l a b) : SplitBefore (x ++ l ++ z) a b := by
  obtain ⟨u, v, w, rfl⟩ := h
  exact ⟨x ++ u, v, w ++ z, by simp⟩

theorem splitBefore_mem_append (l : List Nat) (a b : Nat) (ha : a ∈ l) :
    SplitBefore (l ++ [b]) a b := by
  obtain ⟨s, t, rfl⟩ := List.append_of_mem ha
  exact ⟨s, t, [], by simp⟩

theorem pairState_step (idx : Nat) (rest ordered X Z : List Nat) (a b : Nat)
    (h : PairState (idx :: rest) ordered a b) :
    PairState (X ++ rest ++ Z) (ordered ++ [idx]) a b := by
  rcases h with hs | ⟨hao, hbq⟩ | hs
  · exact Or.inl (splitBefore_append ordered [idx] a b hs)
  · rcases List.mem_cons.mp hbq with rfl | hbr
    · exact Or.inl (splitBefore_mem_append ordered a b hao)
    · exact Or.inr (Or.inl ⟨List.mem_append.mpr (Or.inl hao),
        List.mem_append.mpr (Or.inl (List.mem_append.mpr (Or.inr hbr)))⟩)
  · obtain ⟨u, v, w, hsplit⟩ := hs
    cases u with
    | nil =>
      simp only [List.nil_append] at hsplit
      injection hsplit with h1 h2
      subst h1
      refine Or.inr (Or.inl ⟨?_, ?_⟩)
      · exact List.mem_append.mpr (Or.inr (List.mem_singleton.mpr rfl))
      · rw [h2]
        exact List.mem_append.mpr (Or.inl (List.mem_append.mpr
          (Or.inr (List.mem_append.mpr (Or.inr (List.mem_cons_self _ _))))))
    | cons u0 u2 =>
      rw [List.cons_append] at hsplit
      injection hsplit with h1 h2
      exact Or.inr (Or.inr (splitBefore_extend X rest Z a b ⟨u2, v, w, h2⟩))

theorem exec_pairs_master (ops : List OperationInfo) (c : Nat → Bool) :
    ∀ (fuel : Nat) (queue indeg ordered : List Nat)
      (rounds : List (List Nat)) (r : List Nat × List (List Nat)),
      indeg.length = ops.length →
      (∀ i ∈ queue, i < ops.length) →
      (∀ i ∈ ordered, i < ops.length) →
      (queue ++ ordered).Nodup →
      (∀ i, i < ops.length → (indeg.getD i 0 = 0 ↔ (i ∈ queue ∨ i ∈ ordered))) →
      ops.length - ordered.length < fuel →
      kahnLoop ops (execPush c) fuel queue indeg ordered rounds = r →
      (∀ a b, PairState queue ordered a b → SplitBefore r.1 a b) ∧
      (∀ round, round ∈ r.2 → round ∈ rounds ∨
        (∀ a b, a ∈ round → b ∈ round → c a = true → c b = false →
          SplitBefore r.1 a b)) := by
  intro fuel
  induction fuel with
  | zero =>
    intro queue indeg ordered rounds r _ _ _ _ _ hfuel _
    omega
  | succ fuel ih =>
    intro queue indeg ordered rounds r hlen hqb hob hnd hI4 hfuel hr
    cases queue with
    | nil =>
      have hre : r = (ordered, rounds) := by
        rw [← hr]
        rfl
      rw [hre]
      constructor
      · intro a b hps
        rcases hps with hs | ⟨-, hbq⟩ | hs
        · exact hs
        · cases hbq
        · obtain ⟨u, v, w, hsplit⟩ := hs
          have := congrArg List.length hsplit
          simp only [List.length_nil, List.length_append, List.length_cons]
            at this
          omega
      · intro round hrm
        exact Or.inl hrm
    | cons idx rest =>
      have hidxn : idx < ops.length := hqb idx (List.mem_cons_self _ _)
      have hndc : idx ∉ (rest ++ ordered) ∧ (rest ++ ordered).Nodup := by
        have : ((idx :: rest) ++ ordered).Nodup =
            (idx :: (rest ++ ordered)).Nodup := by
          rw [List.cons_append]
        rw [this] at hnd
        exact List.nodup_cons.mp hnd
      have hidx_not_rest : idx ∉ rest := fun hm =>
        hndc.1 (List.mem_append.mpr (Or.inl hm))
      have hidx_not_ord : idx ∉ ordered := fun hm =>
        hndc.1 (List.mem_append.mpr (Or.inr hm))
      have hro_nd : (rest ++ ordered).Nodup := hndc.2
      have hidx0 : indeg.getD idx 0 = 0 :=
        (hI4 idx hidxn).mpr (Or.inl (List.mem_cons_self _ _))
      obtain ⟨flen, fmono, fzero, fmem, fnodup⟩ :=
        foldDec_props (flatCons ops idx) indeg
      set d2 := (foldDec (flatCons ops idx) indeg).1 with hd2def
      set nr := (foldDec (flatCons ops idx) indeg).2 with hnrdef
      have hrelax : relax ops idx indeg = (d2, nr) := by
        rw [relax_eq_foldDec]
      have hlen2 : d2.length = ops.length := by rw [flen, hlen]
      have hnrlt : ∀ i ∈ nr, i < ops.length := by
        intro i hm
        obtain ⟨hp, -⟩ := (fmem i).mp hm
        have := getD_pos_lt indeg i hp
        omega
      have hnr_fresh : ∀ i ∈ nr, i ∉ (idx :: rest) ∧ i ∉ ordered := by
        intro i hm
        obtain ⟨hp, -⟩ := (fmem i).mp hm
        have hi : i < ops.length := hnrlt i hm
        have hne : indeg.getD i 0 ≠ 0 := by omega
        constructor
        · intro hq
          exact hne ((hI4 i hi).mpr (Or.inl hq))
        · intro ho
          exact hne ((hI4 i hi).mpr (Or.inr ho))
      have hq2perm : (execPush c rest nr).Perm (rest ++ nr) := execPush_perm c rest nr
      have hqb2 : ∀ i ∈ execPush c rest nr, i < ops.length := by
        intro i hm
        rcases List.mem_append.mp (hq2perm.mem_iff.mp hm) with hm2 | hm2
        · exact hqb i (List.mem_cons_of_mem _ hm2)
        · exact hnrlt i hm2
      have hob2 : ∀ i ∈ ordered ++ [idx], i < ops.length := by
        intro i hm
        rcases List.mem_append.mp hm with hm2 | hm2
        · exact hob i hm2
        · rw [List.mem_singleton.mp hm2]
          exact hidxn
      have hnd2 : (execPush c rest nr ++ (ordered ++ [idx])).Nodup := by
        have hperm2 : (execPush c rest nr ++ (ordered ++ [idx])).Perm
            ((rest ++ nr) ++ (ordered ++ [idx])) :=
          hq2perm.append_right _
        apply List.Nodup.perm _ hperm2.symm
        rw [List.nodup_append]
        refine ⟨?_, ?_, ?_⟩
        · rw [List.nodup_append]
          refine ⟨?_, fnodup, ?_⟩
          · exact (List.nodup_append.mp hro_nd).1
          · intro a ha hanr
            have h0 : indeg.getD a 0 = 0 :=
              (hI4 a (hqb a (List.mem_cons_of_mem _ ha))).mpr
                (Or.inl (List.mem_cons_of_mem _ ha))
            obtain ⟨hp, -⟩ := (fmem a).mp hanr
            omega
        · rw [List.nodup_append]
          refine ⟨(List.nodup_append.mp hro_nd).2.1, List.nodup_singleton _, ?_⟩
          intro a ha hax
          rw [List.mem_singleton.mp hax] at ha
          exact hidx_not_ord ha
        · intro a ha hb
          rcases List.mem_append.mp ha with ha2 | ha2
          · rcases List.mem_append.mp hb with hb2 | hb2
            · exact (List.nodup_append.mp hro_nd).2.2 ha2 hb2
            · rw [List.mem_singleton.mp hb2] at ha2
              exact hidx_not_rest ha2
          · rcases List.mem_append.mp hb with hb2 | hb2
            · exact (hnr_fresh a ha2).2 hb2
            · rw [List.mem_singleton.mp hb2] at ha2
              exact (hnr_fresh idx ha2).1 (List.mem_cons_self _ _)
      have hI4b : ∀ i, i < ops.length →
          (d2.getD i 0 = 0 ↔ (i ∈ execPush c rest nr ∨ i ∈ ordered ++ [idx])) := by
        intro i hi
        constructor
        · intro h0
          by_cases hz : indeg.getD i 0 = 0
          · rcases (hI4 i hi).mp hz with hq | ho
            · rcases List.mem_cons.mp hq with rfl | hq2
              · exact Or.inr (List.mem_append.mpr
                  (Or.inr (List.mem_singleton.mpr rfl)))
              · exact Or.inl (hq2perm.mem_iff.mpr
                  (List.mem_append.mpr (Or.inl hq2)))
            · exact Or.inr (List.mem_append.mpr (Or.inl ho))
          · have : i ∈ nr := (fmem i).mpr ⟨by omega, h0⟩
            exact Or.inl (hq2perm.mem_iff.mpr
              (List.mem_append.mpr (Or.inr this)))
        · intro hm
          rcases hm with hm | hm
          · rcases List.mem_append.mp (hq2perm.mem_iff.mp hm) with hm2 | hm2
            · exact fzero i ((hI4 i hi).mpr
                (Or.inl (List.mem_cons_of_mem _ hm2)))
            · exact ((fmem i).mp hm2).2
          · rcases List.mem_append.mp hm with hm2 | hm2
            · exact fzero i ((hI4 i hi).mpr (Or.inr hm2))
            · rw [List.mem_singleton.mp hm2]
              exact fzero idx hidx0
      have hordb : (ordered ++ [idx]).length ≤ ops.length := by
        apply nodup_bound_length _ _ _ hob2
        exact (List.nodup_append.mp hnd2).2.1
      have hfuel2 : ops.length - (ordered ++ [idx]).length < fuel := by
        rw [List.length_append, List.length_singleton]
        rw [List.length_append, List.length_singleton] at hordb
        omega
      have hstep : kahnLoop ops (execPush c) (fuel + 1) (idx :: rest) indeg
          ordered rounds =
          kahnLoop ops (execPush c) fuel
            (execPush c rest (relax ops idx indeg).2)
            (relax ops idx indeg).1 (ordered ++ [idx])
            (rounds ++ [(relax ops idx indeg).2]) := rfl
      have hr2 : kahnLoop ops (execPush c) fuel (execPush c rest nr) d2
          (ordered ++ [idx]) (rounds ++ [nr]) = r := by
        rw [← hr, hstep, hrelax]
      obtain ⟨IH1, IH2⟩ := ih (execPush c rest nr) d2 (ordered ++ [idx])
        (rounds ++ [nr]) r hlen2 hqb2 hob2 hnd2 hI4b hfuel2 hr2
      have hq2shape : execPush c rest nr =
          (nr.filter c).reverse ++ rest ++ nr.filter (fun i => !(c i)) :=
        execPush_eq c rest nr
      constructor
      · intro a b hps
        apply IH1
        rw [hq2shape]
        exact pairState_step idx rest ordered _ _ a b hps
      · intro round hrm
        rcases IH2 round hrm with hin | hgood
        · rcases List.mem_append.mp hin with hin2 | hin2
          · exact Or.inl hin2
          · rw [List.mem_singleton] at hin2
            subst hin2
            refine Or.inr ?_
            intro a b ha hb hca hcb
            apply IH1
            refine Or.inr (Or.inr ?_)
            rw [hq2shape]
            apply splitBefore_of_mem_mem
            · exact List.mem_reverse.mpr (List.mem_filter.mpr ⟨ha, hca⟩)
            · exact List.mem_filter.mpr ⟨hb, by simp [hcb]⟩
        · exact Or.inr hgood

/-- C6: in a successful execution_order result, for every ready round of the
run (the initial ready set or any newly ready batch), an operation of the
round that consumes a declared model input appears strictly before every
operation of the same round that consumes no model input. -/
theorem execution_order_round_priority (ops : List OperationInfo)
    (minputs : List String) (l : List Nat)
    (hok : execution_order ops minputs = .ok l)
    (round : List Nat) (hround : round ∈ (execRun ops minputs).2)
    (a b : Nat) (ha : a ∈ round) (hb : b ∈ round)
    (hca : consumesInput ops minputs a = true)
    (hcb : consumesInput ops minputs b = false) :
    SplitBefore l a b := by
  obtain ⟨r, hr⟩ : ∃ r, kahnLoop ops (execPush (consumesInput ops minputs))
      (ops.length + 1)
      ((execSort (consumesInput ops minputs)
        ((List.range ops.length).filter
          (fun i => (indegreeOf ops).getD i 0 = 0))).foldl
        (fun q i => q ++ [i]) [])
      (indegreeOf ops) [] [] = r := ⟨_, rfl⟩
  have hq0perm := execQueue0_perm ops minputs
  have hready_nd : ((List.range ops.length).filter
      (fun i => (indegreeOf ops).getD i 0 = 0)).Nodup :=
    List.Nodup.filter _ (List.nodup_range ops.length)
  have hqb : ∀ i ∈ (execSort (consumesInput ops minputs)
      ((List.range ops.length).filter
        (fun i => (indegreeOf ops).getD i 0 = 0))).foldl
      (fun q i => q ++ [i]) [], i < ops.length := by
    intro i hi
    have := List.mem_filter.mp (hq0perm.mem_iff.mp hi)
    exact List.mem_range.mp this.1
  have hnd : ((execSort (consumesInput ops minputs)
      ((List.range ops.length).filter
        (fun i => (indegreeOf ops).getD i 0 = 0))).foldl
      (fun q i => q ++ [i]) [] ++ ([] : List Nat)).Nodup := by
    rw [List.append_nil]
    exact List.Nodup.perm hready_nd hq0perm.symm
  have hI4 : ∀ i, i < ops.length → ((indegreeOf ops).getD i 0 = 0 ↔
      (i ∈ (execSort (consumesInput ops minputs)
        ((List.range ops.length).filter
          (fun i => (indegreeOf ops).getD i 0 = 0))).foldl
        (fun q i => q ++ [i]) [] ∨ i ∈ ([] : List Nat))) := by
    intro i hi
    constructor
    · intro h0
      exact Or.inl (hq0perm.mem_iff.mpr (List.mem_filter.mpr
        ⟨List.mem_range.mpr hi, by simpa using h0⟩))
    · rintro (hq | ho)
      · have := List.mem_filter.mp (hq0perm.mem_iff.mp hq)
        simpa using this.2
      · cases ho
  obtain ⟨M1, M2⟩ := exec_pairs_master ops (consumesInput ops minputs)
    (ops.length + 1) _ (indegreeOf ops) [] [] r (indegreeOf_length ops)
    hqb (fun i hi => by cases hi) hnd hI4 (by simp) hr
  have hrun := execRun_eq ops minputs r hr
  have heq := execution_order_eq ops minputs r.1 _ hrun
  rw [heq] at hok
  by_cases hlen1 : r.1.length ≠ ops.length
  · rw [if_pos hlen1] at hok
    exact Except.noConfusion hok
  · rw [if_neg hlen1] at hok
    have hl : r.1 = l := Except.ok.inj hok
    have hround2 : round ∈ ((List.range ops.length).filter
        (fun i => (indegreeOf ops).getD i 0 = 0)) :: r.2 := by
      rw [hrun] at hround
      exact hround
    rcases List.mem_cons.mp hround2 with rfl | hmem
    · rw [← hl]
      apply M1 a b
      refine Or.inr (Or.inr ?_)
      have hq0eq : (execSort (consumesInput ops minputs)
          ((List.range ops.length).filter
            (fun i => (indegreeOf ops).getD i 0 = 0))).foldl
          (fun q i => q ++ [i]) [] =
          ((List.range ops.length).filter
            (fun i => (indegreeOf ops).getD i 0 = 0)).filter
              (consumesInput ops minputs) ++ [] ++
          ((List.range ops.length).filter
            (fun i => (indegreeOf ops).getD i 0 = 0)).filter
              (fun i => !(consumesInput ops minputs i)) := by
        rw [foldl_pushback]
        simp [execSort]
      rw [hq0eq]
      apply splitBefore_of_mem_mem
      · exact List.mem_filter.mpr ⟨ha, hca⟩
      · exact List.mem_filter.mpr ⟨hb, by simp [hcb]⟩
    · rcases M2 round hmem with hin | hgood
      · cases hin
      · rw [← hl]
        exact hgood a b ha hb hca hcb

/-- C6 witness: in the two-operation model exOpsPrio with declared input
inp, the initial ready round is [0, 1], the returned order is [1, 0], and
the input-consuming operation 1 appears before the parameter-only
operation 0. -/
theorem execution_order_round_priority_witness : SplitBefore [1, 0] 1 0 :=
  execution_order_round_priority exOpsPrio ["inp"] [1, 0] (by decide)
    [0, 1] (by decide) 1 0 (by decide) (by decide) (by decide) (by decide)
